import Mathlib

/-!
VMUser reconciler (`controllers/vmuser_controller.go`)

A verification development for `VMUserReconciler.Reconcile`.

The Go function is embedded as a program over the calls it makes (the cluster
client, the finalizer helpers, the selector matcher, the VMAuth factory and the
package-level mutex `vmAuthSyncMU`).  The program is then given two readings:

* `exec`, one invocation running alone: explicit state passing, with the
  sequence of calls actually made returned as a trace;
* `runSchedule`, several invocations interleaved call by call over one shared
  store and one shared mutex.

Logging (`l.Info`, `l.Error`, `l.WithValues`) has no effect on control flow and
is left out.
-/

namespace VMOperator

/-! ## Data model -/

/-- Go `error` values as returned by the cluster client and the helpers.
`Reason` plays the role of the API status reason. -/
structure Error where
  Reason : String
  Message : String
deriving DecidableEq, Repr

/-- `errors.IsNotFound(err)`: the status reason is `NotFound`. -/
def IsNotFound (err : Error) : Bool :=
  err.Reason == "NotFound"

/-- `ctrl.Result`. -/
structure Result where
  Requeue : Bool
  RequeueAfter : Nat
deriving DecidableEq, Repr

/-- `ctrl.Result{}`: the zero value. -/
def Result.empty : Result := ⟨false, 0⟩

/-- `types.NamespacedName`. -/
structure NamespacedName where
  Namespace : String
  Name : String
deriving DecidableEq, Repr

/-- `ctrl.Request`. -/
structure Request where
  NamespacedName : NamespacedName
deriving DecidableEq, Repr

/-- `metav1.Time`, as an instant counted from the zero time. -/
structure Time where
  instant : Nat
deriving DecidableEq, Repr

/-- `(*metav1.Time).IsZero`: a nil pointer is zero, otherwise the instant is
the zero instant. -/
def Time.IsZero : Option Time → Bool
  | none => true
  | some t => t.instant == 0

/-- Modelled from the spec: the `VMUser` type declaration (api/v1beta1) is not
among the sources; §3 gives a User an identity (namespace and name), labels, a
deletion-intent field and the finalizer marker. -/
structure VMUser where
  Namespace : String
  Name : String
  Labels : List (String × String)
  DeletionTimestamp : Option Time
  Finalizers : List String
deriving DecidableEq, Repr

/-- Modelled from the spec: the namespace selector of a Gateway (§4.1), which
matches a set of namespaces, or all of them. -/
inductive NamespaceSelector where
  | all
  | names (ns : List String)
deriving DecidableEq, Repr

/-- Modelled from the spec: the label selector of a Gateway (§4.1), which
matches a set of labels (the empty set matches everything) or is malformed. -/
inductive LabelSelector where
  | matchLabels (kv : List (String × String))
  | malformed (raw : String)
deriving DecidableEq, Repr

/-- Modelled from the spec: the selector part of `VMAuth.Spec`. -/
structure VMAuthSpec where
  UserNamespaceSelector : NamespaceSelector
  UserSelector : LabelSelector
deriving DecidableEq, Repr

/-- Modelled from the spec: the `VMAuth` type declaration (api/v1beta1) is not
among the sources; §3 gives a Gateway an identity and its two selectors. -/
structure VMAuth where
  Namespace : String
  Name : String
  Spec : VMAuthSpec
deriving DecidableEq, Repr

/-- Modelled from the spec: the name of the finalizer marker. -/
def FinalizerName : String := "apps.victoriametrics.com/finalizer"

/-- Modelled from the spec: what `finalize.AddFinalizer` does to the in-memory
object it is handed (§4.3: add marker, idempotent, no-op if already present).
Whether the accompanying store update succeeds is a collaborator result. -/
def addMarker (inst : VMUser) : VMUser :=
  if inst.Finalizers.contains FinalizerName then inst
  else { inst with Finalizers := inst.Finalizers ++ [FinalizerName] }

/-! ## Calls made by the reconciler -/

/-- The calls `Reconcile` makes to its surroundings. -/
inductive Op where
  | Get (key : NamespacedName)
  | Lock
  | Unlock
  | AddFinalizer (inst : VMUser)
  | List
  | isSelectorsMatches (src : VMUser) (tgt : VMAuth)
      (nsSelector : NamespaceSelector) (selector : LabelSelector)
  | CreateOrUpdateVMAuth (cr : VMAuth)
  | OnVMUserDelete (inst : VMUser)
deriving DecidableEq, Repr

/-- What each call hands back. -/
def Resp : Op → Type
  | .Get _ => Except Error VMUser
  | .Lock => Unit
  | .Unlock => Unit
  | .AddFinalizer _ => Option Error
  | .List => Except Error (List VMAuth)
  | .isSelectorsMatches _ _ _ _ => Except Error Bool
  | .CreateOrUpdateVMAuth _ => Option Error
  | .OnVMUserDelete _ => Option Error

/-- Programs: a returned value, or a call followed by the rest of the program. -/
inductive Prog (α : Type) : Type where
  | ret (a : α)
  | call (o : Op) (k : Resp o → Prog α)

/-- Sequencing of programs. -/
def Prog.bind {α β : Type} : Prog α → (α → Prog β) → Prog β
  | .ret a, f => f a
  | .call o k, f => .call o (fun r => (k r).bind f)

instance : Monad Prog where
  pure := Prog.ret
  bind := Prog.bind

/-- A single call as a program. -/
def perform (o : Op) : Prog (Resp o) := .call o .ret

/-! ## The reconciler -/

/-- The `for _, vmauth := range vmauthes.Items` loop of `Reconcile`.
The result is the error that made the loop return early, if any. -/
def syncVMAuthes (inst : VMUser) : List VMAuth → Prog (Option Error)
  | [] => pure none
  | vmauth :: rest => do
    let res ← perform (.isSelectorsMatches inst vmauth
      vmauth.Spec.UserNamespaceSelector vmauth.Spec.UserSelector)
    match res with
    | .error _ => syncVMAuthes inst rest
    | .ok false => syncVMAuthes inst rest
    | .ok true => do
      let err ← perform (.CreateOrUpdateVMAuth vmauth)
      match err with
      | some err => pure (some err)
      | none => syncVMAuthes inst rest

/-- The part of `Reconcile` from the `List` call to the final `return`. -/
def listAndSync (inst : VMUser) : Prog (Result × Option Error) := do
  let vmauthes ← perform .List
  match vmauthes with
  | .error err => pure (Result.empty, some err)
  | .ok items => do
    let loopErr ← syncVMAuthes inst items
    match loopErr with
    | some err => pure (Result.empty, some err)
    | none =>
      if !Time.IsZero inst.DeletionTimestamp then do
        let err ← perform (.OnVMUserDelete inst)
        match err with
        | some err => pure (Result.empty, some err)
        | none => pure (Result.empty, none)
      else pure (Result.empty, none)

/-- The part of `Reconcile` that runs between `vmAuthSyncMU.Lock()` and the
deferred `vmAuthSyncMU.Unlock()`. -/
def reconcileLocked (inst : VMUser) : Prog (Result × Option Error) :=
  if inst.DeletionTimestamp = none then do
    let err ← perform (.AddFinalizer inst)
    match err with
    | some err => pure (Result.empty, some err)
    | none => listAndSync (addMarker inst)
  else listAndSync inst

/-- `VMUserReconciler.Reconcile`. -/
def Reconcile (req : Request) : Prog (Result × Option Error) := do
  let got ← perform (.Get req.NamespacedName)
  match got with
  | .error err =>
    if IsNotFound err then pure (Result.empty, none)
    else pure (Result.empty, some err)
  | .ok inst => do
    perform .Lock
    let out ← reconcileLocked inst
    perform .Unlock
    pure out

/-! ## One invocation running alone -/

/-- A call together with what it handed back, as recorded in a trace. -/
inductive Event where
  | Get (key : NamespacedName) (res : Except Error VMUser)
  | Lock
  | Unlock
  | AddFinalizer (inst : VMUser) (res : Option Error)
  | List (res : Except Error (List VMAuth))
  | isSelectorsMatches (src : VMUser) (tgt : VMAuth) (res : Except Error Bool)
  | CreateOrUpdateVMAuth (cr : VMAuth) (res : Option Error)
  | OnVMUserDelete (inst : VMUser) (res : Option Error)

/-- The trace entry of a call and its response. -/
def Event.of : (o : Op) → Resp o → Event
  | .Get key, r => .Get key r
  | .Lock, _ => .Lock
  | .Unlock, _ => .Unlock
  | .AddFinalizer inst, r => .AddFinalizer inst r
  | .List, r => .List r
  | .isSelectorsMatches src tgt _ _, r => .isSelectorsMatches src tgt r
  | .CreateOrUpdateVMAuth cr, r => .CreateOrUpdateVMAuth cr r
  | .OnVMUserDelete inst, r => .OnVMUserDelete inst r

/-- The functions `Reconcile` calls that are not part of the controller file,
over a store of type `σ`.  Every function that is handed the client may read
and change the store; `isSelectorsMatches` is handed neither a context nor a
client and is a pure function of its arguments. -/
structure Collaborators (σ : Type) where
  Get : NamespacedName → σ → Except Error VMUser × σ
  AddFinalizer : VMUser → σ → Option Error × σ
  List : σ → Except Error (List VMAuth) × σ
  isSelectorsMatches :
    VMUser → VMAuth → NamespaceSelector → LabelSelector → Except Error Bool
  CreateOrUpdateVMAuth : VMAuth → σ → Option Error × σ
  OnVMUserDelete : VMUser → σ → Option Error × σ

/-- Modelled from the spec: the declaration of the package-level mutex
`vmAuthSyncMU` is not in the controller file; §4.2 makes it the one global
synchronization lock, acquired blocking and released on return.  It is kept
next to the store (`true`: locked) and is only ever used through `Lock` and
`Unlock`. -/
structure State (σ : Type) where
  store : σ
  vmAuthSyncMU : Bool

/-- One call against the state.  `none`: the call does not return (`Lock` on a
locked mutex blocks; `Unlock` of an unlocked mutex is a fatal error). -/
def step {σ : Type} (c : Collaborators σ) :
    (o : Op) → State σ → Option (Resp o × State σ)
  | .Get key, s => some ((c.Get key s.store).1, { s with store := (c.Get key s.store).2 })
  | .Lock, s => if s.vmAuthSyncMU then none else some ((), { s with vmAuthSyncMU := true })
  | .Unlock, s => if s.vmAuthSyncMU then some ((), { s with vmAuthSyncMU := false }) else none
  | .AddFinalizer inst, s =>
    some ((c.AddFinalizer inst s.store).1, { s with store := (c.AddFinalizer inst s.store).2 })
  | .List, s => some ((c.List s.store).1, { s with store := (c.List s.store).2 })
  | .isSelectorsMatches src tgt nsSelector selector, s =>
    some (c.isSelectorsMatches src tgt nsSelector selector, s)
  | .CreateOrUpdateVMAuth cr, s =>
    some ((c.CreateOrUpdateVMAuth cr s.store).1,
      { s with store := (c.CreateOrUpdateVMAuth cr s.store).2 })
  | .OnVMUserDelete inst, s =>
    some ((c.OnVMUserDelete inst s.store).1, { s with store := (c.OnVMUserDelete inst s.store).2 })

/-- Run a program from a state: the returned value, the final state and the
calls made, in order.  `none`: the program does not return. -/
def exec {σ α : Type} (c : Collaborators σ) : Prog α → State σ → Option (α × State σ × List Event)
  | .ret a, s => some (a, s, [])
  | .call o k, s =>
    match step c o s with
    | none => none
    | some (r, s1) =>
      match exec c (k r) s1 with
      | none => none
      | some (a, s2, tr) => some (a, s2, Event.of o r :: tr)

/-! ## Reading a trace -/

/-- The function called, without arguments and response. -/
inductive Kind where
  | Get
  | Lock
  | Unlock
  | AddFinalizer
  | List
  | isSelectorsMatches
  | CreateOrUpdateVMAuth
  | OnVMUserDelete
deriving DecidableEq, Repr

/-- The function an event is a call of. -/
def Event.kind : Event → Kind
  | .Get _ _ => .Get
  | .Lock => .Lock
  | .Unlock => .Unlock
  | .AddFinalizer _ _ => .AddFinalizer
  | .List _ => .List
  | .isSelectorsMatches _ _ _ => .isSelectorsMatches
  | .CreateOrUpdateVMAuth _ _ => .CreateOrUpdateVMAuth
  | .OnVMUserDelete _ _ => .OnVMUserDelete

/-- The event is a matcher call that answered with an error. -/
def Event.isMatcherError : Event → Bool
  | .isSelectorsMatches _ _ (.error _) => true
  | _ => false

/-- The gateway of a `CreateOrUpdateVMAuth` call. -/
def Event.regenerated : Event → Option VMAuth
  | .CreateOrUpdateVMAuth cr _ => some cr
  | _ => none

/-- The gateway of an `isSelectorsMatches` call. -/
def Event.matched : Event → Option VMAuth
  | .isSelectorsMatches _ tgt _ => some tgt
  | _ => none

/-- The gateways handed to `CreateOrUpdateVMAuth`, in call order. -/
def regenerated (tr : List Event) : List VMAuth := tr.filterMap Event.regenerated

/-- The gateways handed to `isSelectorsMatches`, in call order. -/
def matched (tr : List Event) : List VMAuth := tr.filterMap Event.matched

/-- The matcher answered `(true, nil)`. -/
def isMatch : Except Error Bool → Bool
  | .ok true => true
  | _ => false

/-- The matcher answered with an error. -/
def isMatchError : Except Error Bool → Bool
  | .error _ => true
  | _ => false

/-- The matcher of `c` applied to a user and a gateway the way the loop of
`Reconcile` applies it. -/
def matchOf {σ : Type} (c : Collaborators σ) (inst : VMUser) (vmauth : VMAuth) :
    Except Error Bool :=
  c.isSelectorsMatches inst vmauth vmauth.Spec.UserNamespaceSelector vmauth.Spec.UserSelector

/-- The error of a failed step, for the steps whose failure `Reconcile` returns:
`Get` with an error other than not-found, `AddFinalizer`, `List`,
`CreateOrUpdateVMAuth` and `OnVMUserDelete`.  A matcher error is not one. -/
def Event.failure : Event → Option Error
  | .Get _ (.error err) => if IsNotFound err then none else some err
  | .AddFinalizer _ res => res
  | .List (.error err) => some err
  | .CreateOrUpdateVMAuth _ res => res
  | .OnVMUserDelete _ res => res
  | _ => none

/-- The error of the first failed step of a trace. -/
def firstFailure (tr : List Event) : Option Error := tr.findSome? Event.failure

/-- The object `Reconcile` holds after its finalizer step: the marker has been
added when the deletion timestamp is nil. -/
def afterFinalizer (inst : VMUser) : VMUser :=
  if inst.DeletionTimestamp = none then addMarker inst else inst

/-! ## Shapes of traces -/

/-- The traces the loop over the listed gateways can leave, with the error it
returns early with, for a matcher `M`. -/
inductive LoopRun (M : VMAuth → Except Error Bool) (inst : VMUser) :
    List VMAuth → List Event → Option Error → Prop
  | done : LoopRun M inst [] [] none
  | skip {g : VMAuth} {rest : List VMAuth} {tr : List Event} {e : Option Error} :
      isMatch (M g) = false → LoopRun M inst rest tr e →
      LoopRun M inst (g :: rest) (.isSelectorsMatches inst g (M g) :: tr) e
  | regen {g : VMAuth} {rest : List VMAuth} {tr : List Event} {e : Option Error} :
      isMatch (M g) = true → LoopRun M inst rest tr e →
      LoopRun M inst (g :: rest)
        (.isSelectorsMatches inst g (M g) :: .CreateOrUpdateVMAuth g none :: tr) e
  | fail {g : VMAuth} {rest : List VMAuth} {err : Error} :
      isMatch (M g) = true →
      LoopRun M inst (g :: rest)
        [.isSelectorsMatches inst g (M g), .CreateOrUpdateVMAuth g (some err)] (some err)

/-- The traces and results of `listAndSync`. -/
inductive TailRun (M : VMAuth → Except Error Bool) (inst : VMUser) :
    List Event → Result × Option Error → Prop
  | listFail (err : Error) : TailRun M inst [.List (.error err)] (Result.empty, some err)
  | loopFail {gws : List VMAuth} {ltr : List Event} {err : Error} :
      LoopRun M inst gws ltr (some err) →
      TailRun M inst (.List (.ok gws) :: ltr) (Result.empty, some err)
  | live {gws : List VMAuth} {ltr : List Event} :
      LoopRun M inst gws ltr none → Time.IsZero inst.DeletionTimestamp = true →
      TailRun M inst (.List (.ok gws) :: ltr) (Result.empty, none)
  | deleted {gws : List VMAuth} {ltr : List Event} (res : Option Error) :
      LoopRun M inst gws ltr none → Time.IsZero inst.DeletionTimestamp = false →
      TailRun M inst (.List (.ok gws) :: (ltr ++ [.OnVMUserDelete inst res])) (Result.empty, res)

/-- The traces and results of `reconcileLocked`. -/
inductive LockedRun (M : VMUser → VMAuth → Except Error Bool) (inst : VMUser) :
    List Event → Result × Option Error → Prop
  | addFail (err : Error) : inst.DeletionTimestamp = none →
      LockedRun M inst [.AddFinalizer inst (some err)] (Result.empty, some err)
  | added {tr : List Event} {out : Result × Option Error} : inst.DeletionTimestamp = none →
      TailRun (M (addMarker inst)) (addMarker inst) tr out →
      LockedRun M inst (.AddFinalizer inst none :: tr) out
  | deleting {tr : List Event} {out : Result × Option Error} : inst.DeletionTimestamp ≠ none →
      TailRun (M inst) inst tr out → LockedRun M inst tr out

/-- The traces and results of `Reconcile`. -/
inductive ReconcileRun (M : VMUser → VMAuth → Except Error Bool) (req : Request) :
    List Event → Result × Option Error → Prop
  | getFail (err : Error) :
      ReconcileRun M req [.Get req.NamespacedName (.error err)]
        (Result.empty, if IsNotFound err then none else some err)
  | fetched {inst : VMUser} {tr : List Event} {out : Result × Option Error} :
      LockedRun M inst tr out →
      ReconcileRun M req (.Get req.NamespacedName (.ok inst) :: .Lock :: (tr ++ [.Unlock])) out

/-- The call of the finalizer step when it succeeds. -/
def finalizerStep (inst : VMUser) : List Event :=
  if inst.DeletionTimestamp = none then [Event.AddFinalizer inst none] else []

/-! ## Runs without the erroring gateways -/

/-- The matcher of `c` does not answer with an error for `u` and the gateway. -/
def matcherAnswers {σ : Type} (c : Collaborators σ) (u : VMUser) (g : VMAuth) : Bool :=
  !isMatchError (matchOf c u g)

/-- The collaborators `c`, except that every successful `List` answer has lost
the gateways on which the matcher errors for `u`. -/
def withoutErroring {σ : Type} (c : Collaborators σ) (u : VMUser) : Collaborators σ :=
  { c with
    List := fun st =>
      (match (c.List st).1 with
        | .ok gws => .ok (gws.filter (matcherAnswers c u))
        | .error err => .error err,
       (c.List st).2) }

/-- A `List` event with the gateways rejected by `keep` removed from a
successful answer; any other event unchanged. -/
def Event.reduceList (keep : VMAuth → Bool) : Event → Event
  | .List (.ok gws) => .List (.ok (gws.filter keep))
  | ev => ev

/-- A trace with the matcher calls that answered with an error deleted and the
`List` answer reduced by `keep`. -/
def reduceTrace (keep : VMAuth → Bool) (tr : List Event) : List Event :=
  (tr.filter (fun ev => !ev.isMatcherError)).map (Event.reduceList keep)

/-- The outcome of a run with its trace reduced. -/
def reduceRun {σ α : Type} (keep : VMAuth → Bool) :
    Option (α × State σ × List Event) → Option (α × State σ × List Event)
  | none => none
  | some (a, s, tr) => some (a, s, reduceTrace keep tr)

/-- Two programs that make the same calls up to the removal of erroring gateways. -/
def Sim {σ α : Type} (c : Collaborators σ) (u : VMUser) (p : Prog α) : Prop :=
  ∀ s : State σ, exec (withoutErroring c u) p s = reduceRun (matcherAnswers c u) (exec c p s)

/-! ## Several invocations at once -/

/-- An invocation of `Reconcile` in flight: what is left of it to run, and
whether it is inside the section guarded by `vmAuthSyncMU` (it has returned from
`Lock` and has not yet called `Unlock`). -/
structure Thread where
  prog : Prog (Result × Option Error)
  holding : Bool

/-- The shared store and mutex, and the invocations in flight. -/
structure System (σ : Type) where
  state : State σ
  threads : List Thread

/-- Whether an invocation is inside the guarded section after a call. -/
def holdingAfter : Op → Bool → Bool
  | .Lock, _ => true
  | .Unlock, _ => false
  | _, h => h

/-- The call belongs to the guarded section: the finalizer step, `List`, the
matcher, `CreateOrUpdateVMAuth` and the cleanup. -/
def guarded : Op → Bool
  | .Get _ => false
  | .Lock => false
  | .Unlock => false
  | _ => true

/-- The next call of a program. -/
def Prog.next {α : Type} : Prog α → Option Op
  | .ret _ => none
  | .call o _ => some o

/-- The invocation makes its next call against the shared state.  `none`: it
has returned already, or the call does not return in this state (`Lock` while
the mutex is held). -/
def Thread.advance {σ : Type} (c : Collaborators σ) (st : State σ) (t : Thread) :
    Option (State σ × Thread) :=
  match t.prog with
  | .ret _ => none
  | .call o k =>
    match step c o st with
    | none => none
    | some (r, st1) => some (st1, ⟨k r, holdingAfter o t.holding⟩)

/-- The scheduler picks invocation `i`; nothing happens if there is no such
invocation or it cannot move. -/
def System.advance {σ : Type} (c : Collaborators σ) (i : Nat) (sys : System σ) : System σ :=
  match sys.threads[i]? with
  | none => sys
  | some t =>
    match t.advance c sys.state with
    | none => sys
    | some (st1, t1) => ⟨st1, sys.threads.set i t1⟩

/-- A move of the system: the scheduler lets invocation `i` make its next call,
or something outside the invocations (another controller, a user, the part of
a collaborator call still in flight) changes the store. -/
inductive Move (σ : Type) where
  | pick (i : Nat)
  | disturb (f : σ → σ)

/-- The system after one move. -/
def System.move {σ : Type} (c : Collaborators σ) : Move σ → System σ → System σ
  | .pick i, sys => sys.advance c i
  | .disturb f, sys => { sys with state := { sys.state with store := f sys.state.store } }

/-- The system after a schedule: the moves made, in order. -/
def runSchedule {σ : Type} (c : Collaborators σ) : List (Move σ) → System σ → System σ
  | [], sys => sys
  | m :: rest, sys => runSchedule c rest (sys.move c m)

/-- One invocation of `Reconcile` per request, none started, the mutex free. -/
def start {σ : Type} (reqs : List Request) (store : σ) : System σ :=
  ⟨⟨store, false⟩, reqs.map (fun req => ⟨Reconcile req, false⟩)⟩

/-- The number of invocations inside the guarded section. -/
def System.inSection {σ : Type} (sys : System σ) : Nat :=
  sys.threads.countP (fun t => t.holding)

/-- The call may be made by an invocation that is (`h = true`) or is not
(`h = false`) inside the guarded section. -/
def allowed (o : Op) (h : Bool) : Bool :=
  match o with
  | .Lock => !h
  | .Unlock => h
  | .Get _ => true
  | _ => h

/-- A program that locks before it enters the guarded section, makes guarded
calls only inside it, unlocks only what it has locked and returns outside it. -/
def WellLocked {α : Type} : Prog α → Bool → Prop
  | .ret _, h => h = false
  | .call o k, h => allowed o h = true ∧ ∀ r, WellLocked (k r) (holdingAfter o h)

/-- A program that stays inside the guarded section. -/
def Body {α : Type} : Prog α → Prop
  | .ret _ => True
  | .call o k => guarded o = true ∧ ∀ r, Body (k r)

/-- What holds of the system at every moment. -/
def Inv {σ : Type} (sys : System σ) : Prop :=
  (∀ t ∈ sys.threads, WellLocked t.prog t.holding) ∧
    sys.inSection = (if sys.state.vmAuthSyncMU then 1 else 0)

/-! ## Example collaborators -/

/-- Modelled from the spec: the Selector Matcher of §4.1 (`isSelectorsMatches`
is not among the sources).  True iff the namespace selector accepts the
user's namespace and the user's labels satisfy the label selector; a
malformed selector is an error. -/
def specMatcher (src : VMUser) (_tgt : VMAuth) (nsSelector : NamespaceSelector)
    (selector : LabelSelector) : Except Error Bool :=
  match selector with
  | .malformed raw => .error ⟨"BadRequest", raw⟩
  | .matchLabels kv =>
    let nsOk := match nsSelector with
      | .all => true
      | .names ns => ns.contains src.Namespace
    .ok (nsOk && kv.all (fun p => src.Labels.contains p))

/-- An example store: the users and gateways present, the gateways whose
regeneration fails, and a log of the mutations requested. -/
structure Cluster where
  users : List VMUser
  vmauthes : List VMAuth
  failing : List String
  log : List String

/-- Example collaborators over `Cluster`. -/
def clusterCollaborators : Collaborators Cluster where
  Get := fun key cl =>
    match cl.users.find? (fun u => u.Namespace == key.Namespace && u.Name == key.Name) with
    | some u => (.ok u, cl)
    | none => (.error ⟨"NotFound", key.Name⟩, cl)
  AddFinalizer := fun inst cl => (none, { cl with log := cl.log ++ ["finalizer:" ++ inst.Name] })
  List := fun cl => (.ok cl.vmauthes, cl)
  isSelectorsMatches := specMatcher
  CreateOrUpdateVMAuth := fun cr cl =>
    if cl.failing.contains cr.Name then (some ⟨"Internal", cr.Name⟩, cl)
    else (none, { cl with log := cl.log ++ ["vmauth:" ++ cr.Name] })
  OnVMUserDelete := fun inst cl =>
    (none, { cl with users := cl.users.filter (fun u => !(u.Namespace == inst.Namespace && u.Name == inst.Name)),
                     log := cl.log ++ ["delete:" ++ inst.Name] })

/-- User `u1` in `ns1` with label `app=foo`. -/
def u1 : VMUser := ⟨"ns1", "u1", [("app", "foo")], none, []⟩

/-- Gateway `g1`: selects namespace `ns1` and label `app=foo`. -/
def g1 : VMAuth := ⟨"gw", "g1", ⟨.names ["ns1"], .matchLabels [("app", "foo")]⟩⟩

/-- Gateway `g2`: selects namespace `ns2`. -/
def g2 : VMAuth := ⟨"gw", "g2", ⟨.names ["ns2"], .matchLabels []⟩⟩

/-- Gateway `g3`: a malformed label selector. -/
def g3 : VMAuth := ⟨"gw", "g3", ⟨.all, .malformed "app in"⟩⟩

/-- The request for `u1`. -/
def reqU1 : Request := ⟨⟨"ns1", "u1"⟩⟩

/-- A cluster holding `u1`, `g1` and `g2`, with the mutex free. -/
def cluster1 : State Cluster := ⟨⟨[u1], [g1, g2], [], []⟩, false⟩

/-- Gateway `g4`: selects every user. -/
def g4 : VMAuth := ⟨"gw", "g4", ⟨.all, .matchLabels []⟩⟩

/-- User `u1` with deletion requested and the finalizer marker still present. -/
def u1Deleting : VMUser := ⟨"ns1", "u1", [("app", "foo")], some ⟨100⟩, [FinalizerName]⟩

/-- User `u1` with deletion requested and the finalizer marker gone. -/
def u1Unmarked : VMUser := ⟨"ns1", "u1", [("app", "foo")], some ⟨100⟩, []⟩

/-- A cluster without `u1`. -/
def cluster0 : State Cluster := ⟨⟨[], [g1, g2], [], []⟩, false⟩

/-- A cluster holding `u1`, `g1` and `g4`, where regenerating `g1` fails. -/
def cluster3 : State Cluster := ⟨⟨[u1], [g1, g4], ["g1"], []⟩, false⟩

/-- A cluster holding `u1` and the gateways `g3` (malformed), `g1` and `g2`. -/
def cluster4 : State Cluster := ⟨⟨[u1], [g3, g1, g2], [], []⟩, false⟩

/-- A cluster holding `u1Deleting`, `g1` and `g2`. -/
def cluster6 : State Cluster := ⟨⟨[u1Deleting], [g1, g2], [], []⟩, false⟩

/-- A cluster holding `u1Unmarked`, `g1` and `g2`. -/
def cluster7 : State Cluster := ⟨⟨[u1Unmarked], [g1, g2], [], []⟩, false⟩

/-- The part of a run that can be compared: result, regenerated gateways, the
functions called in order, and the mutations logged by the example store. -/
def summary (run : Option ((Result × Option Error) × State Cluster × List Event)) :
    Option ((Result × Option Error) × List VMAuth × List Kind × List String) :=
  run.map (fun x => (x.1, regenerated x.2.2, x.2.2.map Event.kind, x.2.1.store.log))

/-! ## Running programs -/

theorem exec_ret {σ α : Type} (c : Collaborators σ) (a : α) (s : State σ) :
    exec c (pure a : Prog α) s = some (a, s, []) := rfl

theorem exec_bind {σ α β : Type} (c : Collaborators σ) (p : Prog α) (f : α → Prog β)
    (s : State σ) :
    exec c (p >>= f) s =
      match exec c p s with
      | none => none
      | some (a, s1, tr1) =>
        match exec c (f a) s1 with
        | none => none
        | some (b, s2, tr2) => some (b, s2, tr1 ++ tr2) := by
  show exec c (p.bind f) s = _
  induction p generalizing s with
  | ret a =>
    simp only [Prog.bind, exec]
    cases exec c (f a) s with
    | none => rfl
    | some x => rfl
  | call o k ih =>
    simp only [Prog.bind, exec]
    cases hs : step c o s with
    | none => rfl
    | some x =>
      obtain ⟨r, s1⟩ := x
      simp only [ih]
      cases exec c (k r) s1 with
      | none => rfl
      | some y =>
        obtain ⟨a, s2, tr⟩ := y
        simp only
        cases exec c (f a) s2 with
        | none => rfl
        | some z => rfl

theorem exec_perform {σ : Type} (c : Collaborators σ) (o : Op) (s : State σ) :
    exec c (perform o) s =
      match step c o s with
      | none => none
      | some (r, s1) => some (r, s1, [Event.of o r]) := by
  simp only [perform, exec]

theorem matchOf_eq {σ : Type} (c : Collaborators σ) (inst : VMUser) (g : VMAuth) :
    c.isSelectorsMatches inst g g.Spec.UserNamespaceSelector g.Spec.UserSelector =
      matchOf c inst g := rfl

theorem exec_syncVMAuthes {σ : Type} (c : Collaborators σ) (inst : VMUser) (gws : List VMAuth)
    (s : State σ) :
    ∃ e s1 tr, exec c (syncVMAuthes inst gws) s = some (e, s1, tr) ∧ s1.vmAuthSyncMU = s.vmAuthSyncMU ∧
      LoopRun (matchOf c inst) inst gws tr e := by
  induction gws generalizing s with
  | nil => exact ⟨none, s, [], rfl, rfl, .done⟩
  | cons g rest ih =>
    simp only [syncVMAuthes, exec_bind, exec_perform, step, matchOf_eq]
    cases hM : matchOf c inst g with
    | error err =>
      obtain ⟨e, s1, tr, h1, h2, h3⟩ := ih s
      refine ⟨e, s1, Event.isSelectorsMatches inst g (matchOf c inst g) :: tr, ?_, h2, ?_⟩
      · simp only [h1, hM, Event.of, List.singleton_append]
      · exact LoopRun.skip (by simp [hM, isMatch]) h3
    | ok b =>
      cases b with
      | false =>
        obtain ⟨e, s1, tr, h1, h2, h3⟩ := ih s
        refine ⟨e, s1, Event.isSelectorsMatches inst g (matchOf c inst g) :: tr, ?_, h2, ?_⟩
        · simp only [h1, hM, Event.of, List.singleton_append]
        · exact LoopRun.skip (by simp [hM, isMatch]) h3
      | true =>
        simp only [exec_bind, exec_perform, step]
        cases hC : (c.CreateOrUpdateVMAuth g s.store).1 with
        | some err =>
          refine ⟨some err, { s with store := (c.CreateOrUpdateVMAuth g s.store).2 },
            [Event.isSelectorsMatches inst g (matchOf c inst g),
            Event.CreateOrUpdateVMAuth g (some err)], ?_, ?_, ?_⟩
          · simp only [exec_ret, hM, Event.of, List.singleton_append, List.append_nil]
          · rfl
          · exact LoopRun.fail (by simp [hM, isMatch])
        | none =>
          obtain ⟨e, s1, tr, h1, h2, h3⟩ :=
            ih { s with store := (c.CreateOrUpdateVMAuth g s.store).2 }
          refine ⟨e, s1, Event.isSelectorsMatches inst g (matchOf c inst g) ::
            Event.CreateOrUpdateVMAuth g none :: tr, ?_, h2, ?_⟩
          · simp only [h1, hM, Event.of, List.singleton_append, List.cons_append, List.nil_append]
          · exact LoopRun.regen (by simp [hM, isMatch]) h3

theorem exec_listAndSync {σ : Type} (c : Collaborators σ) (inst : VMUser) (s : State σ) :
    ∃ out s1 tr, exec c (listAndSync inst) s = some (out, s1, tr) ∧ s1.vmAuthSyncMU = s.vmAuthSyncMU ∧
      TailRun (matchOf c inst) inst tr out := by
  simp only [listAndSync, exec_bind, exec_perform, step]
  cases hL : (c.List s.store).1 with
  | error err =>
    refine ⟨(Result.empty, some err), { s with store := (c.List s.store).2 },
      [Event.List (.error err)], ?_, rfl, TailRun.listFail err⟩
    simp only [exec_ret, Event.of, List.append_nil]
  | ok gws =>
    obtain ⟨e, s1, ltr, h1, h2, h3⟩ :=
      exec_syncVMAuthes c inst gws { s with store := (c.List s.store).2 }
    simp only [exec_bind, h1]
    cases e with
    | some err =>
      refine ⟨(Result.empty, some err), s1, Event.List (.ok gws) :: ltr, ?_, h2,
        TailRun.loopFail h3⟩
      simp only [exec_ret, Event.of, List.append_nil, List.singleton_append]
    | none =>
      cases hZ : Time.IsZero inst.DeletionTimestamp with
      | true =>
        refine ⟨(Result.empty, none), s1, Event.List (.ok gws) :: ltr, ?_, h2,
          TailRun.live h3 hZ⟩
        simp [exec_ret, Event.of]
      | false =>
        refine ⟨(Result.empty, (c.OnVMUserDelete inst s1.store).1),
          { s1 with store := (c.OnVMUserDelete inst s1.store).2 },
          Event.List (.ok gws) :: (ltr ++ [Event.OnVMUserDelete inst
            (c.OnVMUserDelete inst s1.store).1]), ?_, h2, TailRun.deleted _ h3 hZ⟩
        simp only [Bool.not_false, if_true, exec_bind, exec_perform, step]
        cases (c.OnVMUserDelete inst s1.store).1 with
        | some err => simp [exec_ret, Event.of]
        | none => simp [exec_ret, Event.of]

theorem exec_reconcileLocked {σ : Type} (c : Collaborators σ) (inst : VMUser) (s : State σ) :
    ∃ out s1 tr, exec c (reconcileLocked inst) s = some (out, s1, tr) ∧ s1.vmAuthSyncMU = s.vmAuthSyncMU ∧
      LockedRun (matchOf c) inst tr out := by
  unfold reconcileLocked
  by_cases hD : inst.DeletionTimestamp = none
  · simp only [hD, if_true, exec_bind, exec_perform, step]
    cases hA : (c.AddFinalizer inst s.store).1 with
    | some err =>
      refine ⟨(Result.empty, some err), { s with store := (c.AddFinalizer inst s.store).2 },
        [Event.AddFinalizer inst (some err)], ?_, rfl, LockedRun.addFail err hD⟩
      simp [exec_ret, Event.of]
    | none =>
      obtain ⟨out, s1, tr, h1, h2, h3⟩ :=
        exec_listAndSync c (addMarker inst) { s with store := (c.AddFinalizer inst s.store).2 }
      refine ⟨out, s1, Event.AddFinalizer inst none :: tr, ?_, h2, LockedRun.added hD h3⟩
      simp [h1, Event.of]
  · obtain ⟨out, s1, tr, h1, h2, h3⟩ := exec_listAndSync c inst s
    exact ⟨out, s1, tr, by simp [hD, h1], h2, LockedRun.deleting hD h3⟩

/-- When `Get` fails, `Reconcile` returns after that single call. -/
theorem exec_Reconcile_getFail {σ : Type} (c : Collaborators σ) (req : Request) (s : State σ)
    (err : Error) (hG : (c.Get req.NamespacedName s.store).1 = .error err) :
    exec c (Reconcile req) s =
      some ((Result.empty, if IsNotFound err then none else some err),
        { s with store := (c.Get req.NamespacedName s.store).2 },
        [Event.Get req.NamespacedName (.error err)]) := by
  simp only [Reconcile, exec_bind, exec_perform, step, hG]
  by_cases hN : IsNotFound err = true
  · simp [hN, exec_ret, Event.of]
  · simp [hN, exec_ret, Event.of]

/-- When `Get` succeeds and the mutex is free, `Reconcile` returns, with the
mutex free again, after `Get`, `Lock`, the locked part run with the mutex held,
and `Unlock`. -/
theorem exec_Reconcile_fetched {σ : Type} (c : Collaborators σ) (req : Request) (s : State σ)
    (inst : VMUser) (hG : (c.Get req.NamespacedName s.store).1 = .ok inst)
    (hfree : s.vmAuthSyncMU = false) :
    ∃ out st tr, exec c (Reconcile req) s =
        some (out, ⟨st, false⟩, Event.Get req.NamespacedName (.ok inst) :: Event.Lock ::
          (tr ++ [Event.Unlock])) ∧
      exec c (reconcileLocked inst) ⟨(c.Get req.NamespacedName s.store).2, true⟩ =
        some (out, ⟨st, true⟩, tr) ∧
      LockedRun (matchOf c) inst tr out := by
  obtain ⟨out, s1, tr, h1, h2, h3⟩ := exec_reconcileLocked c inst
    { store := (c.Get req.NamespacedName s.store).2, vmAuthSyncMU := true }
  have h2a : s1.vmAuthSyncMU = true := h2
  have hs1 : s1 = ⟨s1.store, true⟩ := by
    cases s1
    simp only [State.mk.injEq, true_and]
    exact h2a
  refine ⟨out, s1.store, tr, ?_, ?_, h3⟩
  · simp [Reconcile, exec_bind, exec_perform, step, hG, hfree, h1, h2a, exec_ret, Event.of]
  · rw [h1, hs1]

/-- Unless it is kept waiting at `Lock` (the mutex is free, or `Get` fails and
`Lock` is never reached), `Reconcile` returns and leaves the mutex as it found
it. -/
theorem exec_Reconcile {σ : Type} (c : Collaborators σ) (req : Request) (s : State σ)
    (hret : s.vmAuthSyncMU = false ∨ ∃ err, (c.Get req.NamespacedName s.store).1 = .error err) :
    ∃ out s1 tr, exec c (Reconcile req) s = some (out, s1, tr) ∧
      s1.vmAuthSyncMU = s.vmAuthSyncMU ∧
      tr.head? = some (Event.Get req.NamespacedName (c.Get req.NamespacedName s.store).1) ∧
      ReconcileRun (matchOf c) req tr out := by
  cases hG : (c.Get req.NamespacedName s.store).1 with
  | error err =>
    exact ⟨_, _, _, exec_Reconcile_getFail c req s err hG, rfl, rfl, ReconcileRun.getFail err⟩
  | ok inst =>
    have hfree : s.vmAuthSyncMU = false := by
      rcases hret with h | ⟨err, h⟩
      · exact h
      · rw [hG] at h
        cases h
    obtain ⟨out, st, tr, h1, -, h3⟩ := exec_Reconcile_fetched c req s inst hG hfree
    exact ⟨out, ⟨st, false⟩, _, h1, hfree.symm, rfl, ReconcileRun.fetched h3⟩

/-- With the mutex held, an invocation whose `Get` succeeds does not return: it
waits at `Lock`. -/
theorem exec_Reconcile_blocked {σ : Type} (c : Collaborators σ) (req : Request) (s : State σ)
    (inst : VMUser) (hG : (c.Get req.NamespacedName s.store).1 = .ok inst)
    (hheld : s.vmAuthSyncMU = true) : exec c (Reconcile req) s = none := by
  simp [Reconcile, exec_bind, exec_perform, step, hG, hheld]

/-! ## Facts about loop traces -/

theorem LoopRun.loop_kind_mem {M : VMAuth → Except Error Bool} {inst : VMUser} {gws : List VMAuth}
    {ltr : List Event} {e : Option Error} (h : LoopRun M inst gws ltr e) :
    ∀ ev ∈ ltr, ev.kind = .isSelectorsMatches ∨ ev.kind = .CreateOrUpdateVMAuth := by
  induction h with
  | done => simp
  | skip _ _ ih =>
    intro ev hev
    rcases List.mem_cons.1 hev with rfl | hev
    · exact Or.inl rfl
    · exact ih ev hev
  | regen _ _ ih =>
    intro ev hev
    rcases List.mem_cons.1 hev with rfl | hev
    · exact Or.inl rfl
    · rcases List.mem_cons.1 hev with rfl | hev
      · exact Or.inr rfl
      · exact ih ev hev
  | fail _ =>
    intro ev hev
    simp only [List.mem_cons, List.mem_singleton, List.not_mem_nil, or_false] at hev
    rcases hev with rfl | rfl
    · exact Or.inl rfl
    · exact Or.inr rfl

/-- A loop that runs to its end has called the matcher on every listed gateway,
in order, and has regenerated exactly the matching ones, none with an error. -/
theorem LoopRun.of_none {M : VMAuth → Except Error Bool} {inst : VMUser} {gws : List VMAuth}
    {ltr : List Event} {e : Option Error} (h : LoopRun M inst gws ltr e) (he : e = none) :
    matched ltr = gws ∧ regenerated ltr = gws.filter (fun g => isMatch (M g)) ∧
      (∀ g err, Event.CreateOrUpdateVMAuth g (some err) ∉ ltr) ∧
      ltr.filter Event.isMatcherError =
        (gws.filter (fun g => isMatchError (M g))).map
          (fun g => Event.isSelectorsMatches inst g (M g)) := by
  induction h with
  | done => simp [matched, regenerated]
  | @skip g rest tr e hm _ ih =>
    obtain ⟨h1, h2, h3, h4⟩ := ih he
    refine ⟨?_, ?_, ?_, ?_⟩
    · simp [matched, Event.matched] at h1 ⊢
      exact h1
    · simp [regenerated, Event.regenerated, hm] at h2 ⊢
      exact h2
    · intro g1 err hmem
      simp only [List.mem_cons] at hmem
      rcases hmem with hmem | hmem
      · cases hmem
      · exact h3 g1 err hmem
    · cases hMg : M g with
      | error err => simp [List.filter_cons, Event.isMatcherError, isMatchError, h4, hMg]
      | ok b => simp [List.filter_cons, Event.isMatcherError, isMatchError, h4, hMg]
  | @regen g rest tr e hm _ ih =>
    obtain ⟨h1, h2, h3, h4⟩ := ih he
    refine ⟨?_, ?_, ?_, ?_⟩
    · simp [matched, Event.matched] at h1 ⊢
      exact h1
    · simp [regenerated, Event.regenerated, hm] at h2 ⊢
      exact h2
    · intro g1 err hmem
      simp only [List.mem_cons] at hmem
      rcases hmem with hmem | hmem | hmem
      · cases hmem
      · cases hmem
      · exact h3 g1 err hmem
    · cases hMg : M g with
      | error err => simp [hMg, isMatch] at hm
      | ok b => simp [List.filter_cons, Event.isMatcherError, isMatchError, h4, hMg]
  | fail _ => cases he

/-- A loop that returns early stopped at a matching gateway whose regeneration
failed, after running to the end of the gateways listed before it. -/
theorem LoopRun.of_some {M : VMAuth → Except Error Bool} {inst : VMUser} {gws : List VMAuth}
    {ltr : List Event} {e : Option Error} (h : LoopRun M inst gws ltr e) (err : Error)
    (he : e = some err) :
    ∃ before g after pre, gws = before ++ g :: after ∧ isMatch (M g) = true ∧
      ltr = pre ++ [Event.isSelectorsMatches inst g (M g),
        Event.CreateOrUpdateVMAuth g (some err)] ∧
      LoopRun M inst before pre none := by
  induction h with
  | done => cases he
  | @skip g rest tr e hm hrun ih =>
    obtain ⟨before, g1, after, pre, h1, h2, h3, h4⟩ := ih he
    exact ⟨g :: before, g1, after, _ :: pre, by simp [h1], h2, by simp [h3],
      LoopRun.skip hm h4⟩
  | @regen g rest tr e hm hrun ih =>
    obtain ⟨before, g1, after, pre, h1, h2, h3, h4⟩ := ih he
    exact ⟨g :: before, g1, after, _ :: _ :: pre, by simp [h1], h2, by simp [h3],
      LoopRun.regen hm h4⟩
  | @fail g rest err1 hm =>
    cases he
    exact ⟨[], g, rest, [], rfl, hm, rfl, LoopRun.done⟩

/-- The error a loop returns is the error of its first failed step. -/
theorem LoopRun.firstFailure_eq {M : VMAuth → Except Error Bool} {inst : VMUser}
    {gws : List VMAuth} {ltr : List Event} {e : Option Error} (h : LoopRun M inst gws ltr e) :
    ∀ rest : List Event, firstFailure (ltr ++ rest) = (e <|> firstFailure rest) := by
  induction h with
  | done => intro rest; simp
  | skip _ _ ih =>
    intro rest
    simpa [firstFailure, Event.failure] using ih rest
  | regen _ _ ih =>
    intro rest
    simpa [firstFailure, Event.failure] using ih rest
  | fail _ =>
    intro rest
    simp [firstFailure, Event.failure]

/-! ## Facts about the locked part -/

theorem addMarker_DeletionTimestamp (inst : VMUser) :
    (addMarker inst).DeletionTimestamp = inst.DeletionTimestamp := by
  unfold addMarker
  split <;> rfl

theorem afterFinalizer_DeletionTimestamp (inst : VMUser) :
    (afterFinalizer inst).DeletionTimestamp = inst.DeletionTimestamp := by
  unfold afterFinalizer
  split
  · exact addMarker_DeletionTimestamp inst
  · rfl

theorem LockedRun.split {M : VMUser → VMAuth → Except Error Bool} {inst : VMUser}
    {tr : List Event} {out : Result × Option Error} (h : LockedRun M inst tr out) :
    (inst.DeletionTimestamp = none ∧
      ∃ err, tr = [Event.AddFinalizer inst (some err)] ∧ out = (Result.empty, some err)) ∨
    (∃ ttr, tr = finalizerStep inst ++ ttr ∧
      TailRun (M (afterFinalizer inst)) (afterFinalizer inst) ttr out) := by
  cases h with
  | addFail err hD => exact Or.inl ⟨hD, err, rfl, rfl⟩
  | @added tr0 _ hD ht =>
    refine Or.inr ⟨tr0, ?_, ?_⟩
    · simp only [finalizerStep, hD, if_true, List.singleton_append]
    · simpa [afterFinalizer, hD] using ht
  | deleting hD ht =>
    refine Or.inr ⟨tr, ?_, ?_⟩
    · simp only [finalizerStep, hD, if_false, List.nil_append]
    · simpa [afterFinalizer, hD] using ht

theorem finalizerStep_kind (inst : VMUser) :
    ∀ ev ∈ finalizerStep inst, ev.kind = .AddFinalizer := by
  intro ev hev
  unfold finalizerStep at hev
  split at hev
  · simp only [List.mem_singleton] at hev
    subst hev
    rfl
  · simp at hev

theorem TailRun.tail_kind_mem {M : VMAuth → Except Error Bool} {u : VMUser} {tr : List Event}
    {out : Result × Option Error} (h : TailRun M u tr out) :
    ∀ ev ∈ tr, ev.kind = .List ∨ ev.kind = .isSelectorsMatches ∨
      ev.kind = .CreateOrUpdateVMAuth ∨ ev.kind = .OnVMUserDelete := by
  intro ev hev
  cases h with
  | listFail err =>
    simp only [List.mem_singleton] at hev
    subst hev
    exact Or.inl rfl
  | loopFail hl =>
    rcases List.mem_cons.1 hev with rfl | hev
    · exact Or.inl rfl
    · rcases hl.loop_kind_mem ev hev with h | h
      · exact Or.inr (Or.inl h)
      · exact Or.inr (Or.inr (Or.inl h))
  | live hl _ =>
    rcases List.mem_cons.1 hev with rfl | hev
    · exact Or.inl rfl
    · rcases hl.loop_kind_mem ev hev with h | h
      · exact Or.inr (Or.inl h)
      · exact Or.inr (Or.inr (Or.inl h))
  | deleted res hl _ =>
    rcases List.mem_cons.1 hev with rfl | hev
    · exact Or.inl rfl
    · rcases List.mem_append.1 hev with hev | hev
      · rcases hl.loop_kind_mem ev hev with h | h
        · exact Or.inr (Or.inl h)
        · exact Or.inr (Or.inr (Or.inl h))
      · simp only [List.mem_singleton] at hev
        subst hev
        exact Or.inr (Or.inr (Or.inr rfl))

theorem LockedRun.locked_kind_mem {M : VMUser → VMAuth → Except Error Bool} {inst : VMUser}
    {tr : List Event} {out : Result × Option Error} (h : LockedRun M inst tr out) :
    ∀ ev ∈ tr, ev.kind = .AddFinalizer ∨ ev.kind = .List ∨ ev.kind = .isSelectorsMatches ∨
      ev.kind = .CreateOrUpdateVMAuth ∨ ev.kind = .OnVMUserDelete := by
  intro ev hev
  rcases h.split with ⟨_, err, rfl, _⟩ | ⟨ttr, rfl, ht⟩
  · simp only [List.mem_singleton] at hev
    subst hev
    exact Or.inl rfl
  · rcases List.mem_append.1 hev with hev | hev
    · exact Or.inl (finalizerStep_kind inst ev hev)
    · exact Or.inr (ht.tail_kind_mem ev hev)

/-- The result of the part after the finalizer step is the empty result with
the error of the first failed step. -/
theorem TailRun.tail_result {M : VMAuth → Except Error Bool} {u : VMUser} {tr : List Event}
    {out : Result × Option Error} (h : TailRun M u tr out) :
    out.1 = Result.empty ∧
      ∀ rest : List Event, firstFailure (tr ++ rest) = (out.2 <|> firstFailure rest) := by
  cases h with
  | listFail err => simp [firstFailure, Event.failure]
  | loopFail hl =>
    refine ⟨rfl, fun rest => ?_⟩
    have := hl.firstFailure_eq rest
    simpa [firstFailure, Event.failure] using this
  | live hl _ =>
    refine ⟨rfl, fun rest => ?_⟩
    have := hl.firstFailure_eq rest
    simpa [firstFailure, Event.failure] using this
  | deleted res hl _ =>
    refine ⟨rfl, fun rest => ?_⟩
    have := hl.firstFailure_eq (Event.OnVMUserDelete u res :: rest)
    cases res with
    | none => simpa [firstFailure, Event.failure] using this
    | some err => simpa [firstFailure, Event.failure] using this

/-- When `List` succeeds and no regeneration fails, the matcher has been called
on every listed gateway and exactly the matching ones were regenerated. -/
theorem TailRun.regenerated_eq {M : VMAuth → Except Error Bool} {u : VMUser} {tr : List Event}
    {out : Result × Option Error} (h : TailRun M u tr out) (gws : List VMAuth)
    (hlist : Event.List (.ok gws) ∈ tr)
    (hok : ∀ g err, Event.CreateOrUpdateVMAuth g (some err) ∉ tr) :
    matched tr = gws ∧ regenerated tr = gws.filter (fun g => isMatch (M g)) := by
  cases h with
  | listFail err => simp at hlist
  | @loopFail gws0 ltr err hl =>
    obtain ⟨before, g, after, pre, -, -, h3, -⟩ := hl.of_some err rfl
    exact absurd (by simp [h3]) (hok g err)
  | @live gws0 ltr hl _ =>
    have hgws : gws = gws0 := by
      rcases List.mem_cons.1 hlist with h | h
      · simpa using h
      · rcases hl.loop_kind_mem _ h with h | h <;> cases h
    subst hgws
    obtain ⟨h1, h2, -, -⟩ := hl.of_none rfl
    simpa only [matched, regenerated, List.filterMap_cons, Event.matched, Event.regenerated]
      using And.intro h1 h2
  | @deleted gws0 ltr res hl _ =>
    have hgws : gws = gws0 := by
      rcases List.mem_cons.1 hlist with h | h
      · simpa using h
      · rcases List.mem_append.1 h with h | h
        · rcases hl.loop_kind_mem _ h with h | h <;> cases h
        · simp at h
    subst hgws
    obtain ⟨h1, h2, -, -⟩ := hl.of_none rfl
    simpa only [matched, regenerated, List.filterMap_cons, List.filterMap_append,
      Event.matched, Event.regenerated, List.filterMap_nil, List.append_nil]
      using And.intro h1 h2

/-- A failed regeneration is the last call of the part after the finalizer
step: its error is returned, and the loop had run to the end of the gateways
listed before the failing one. -/
theorem TailRun.of_regen_fail {M : VMAuth → Except Error Bool} {u : VMUser} {tr : List Event}
    {out : Result × Option Error} (h : TailRun M u tr out) (g : VMAuth) (err : Error)
    (hmem : Event.CreateOrUpdateVMAuth g (some err) ∈ tr) :
    out = (Result.empty, some err) ∧
      ∃ gws before after pre, gws = before ++ g :: after ∧ isMatch (M g) = true ∧
        tr = Event.List (.ok gws) :: (pre ++ [Event.isSelectorsMatches u g (M g),
          Event.CreateOrUpdateVMAuth g (some err)]) ∧
        LoopRun M u before pre none := by
  cases h with
  | listFail err0 => simp at hmem
  | @loopFail gws0 ltr err0 hl =>
    obtain ⟨before, g0, after, pre, h1, h2, h3, h4⟩ := hl.of_some err0 rfl
    obtain ⟨-, -, hno, -⟩ := h4.of_none rfl
    subst h3
    have hEq : g = g0 ∧ err = err0 := by
      simp only [List.mem_cons, List.mem_append, List.mem_singleton, List.not_mem_nil,
        or_false] at hmem
      rcases hmem with hmem | hmem | hmem | hmem
      · cases hmem
      · exact absurd hmem (hno g err)
      · cases hmem
      · simpa using hmem
    obtain ⟨rfl, rfl⟩ := hEq
    exact ⟨rfl, gws0, before, after, pre, h1, h2, rfl, h4⟩
  | @live gws0 ltr hl _ =>
    obtain ⟨-, -, hno, -⟩ := hl.of_none rfl
    simp only [List.mem_cons] at hmem
    rcases hmem with hmem | hmem
    · cases hmem
    · exact absurd hmem (hno g err)
  | @deleted gws0 ltr res hl _ =>
    obtain ⟨-, -, hno, -⟩ := hl.of_none rfl
    simp only [List.mem_cons, List.mem_append, List.not_mem_nil, or_false] at hmem
    rcases hmem with hmem | hmem | hmem
    · cases hmem
    · exact absurd hmem (hno g err)
    · cases hmem

theorem regenerated_finalizerStep (inst : VMUser) (tr : List Event) :
    regenerated (finalizerStep inst ++ tr) = regenerated tr := by
  unfold finalizerStep
  split <;> simp [regenerated, Event.regenerated]

theorem matched_finalizerStep (inst : VMUser) (tr : List Event) :
    matched (finalizerStep inst ++ tr) = matched tr := by
  unfold finalizerStep
  split <;> simp [matched, Event.matched]

theorem finalizerStep_not_mem (inst : VMUser) (ev : Event) (hk : ev.kind ≠ .AddFinalizer) :
    ev ∉ finalizerStep inst :=
  fun h => hk (finalizerStep_kind inst ev h)

/-- An event of the part after the finalizer step, found in the whole trace. -/
theorem mem_tail_of_mem {key : NamespacedName} {res : Except Error VMUser} {inst : VMUser}
    {ttr : List Event} {ev : Event}
    (h : ev ∈ Event.Get key res :: Event.Lock :: (finalizerStep inst ++ ttr ++ [Event.Unlock]))
    (h1 : ev.kind ≠ .Get) (h2 : ev.kind ≠ .Lock) (h3 : ev.kind ≠ .Unlock)
    (h4 : ev.kind ≠ .AddFinalizer) : ev ∈ ttr := by
  simp only [List.mem_cons, List.mem_append, List.not_mem_nil, or_false] at h
  rcases h with h | h | (h | h) | h
  · subst h
    exact absurd rfl h1
  · subst h
    exact absurd rfl h2
  · exact absurd h (finalizerStep_not_mem inst _ h4)
  · exact h
  · subst h
    exact absurd rfl h3

theorem firstFailure_finalizerStep (inst : VMUser) (tr : List Event) :
    firstFailure (finalizerStep inst ++ tr) = firstFailure tr := by
  unfold finalizerStep
  split <;> simp [firstFailure, Event.failure]

theorem TailRun.cleanup {M : VMAuth → Except Error Bool} {u : VMUser} {tr : List Event}
    {out : Result × Option Error} (h : TailRun M u tr out) :
    (Time.IsZero u.DeletionTimestamp = true → ∀ ev ∈ tr, ev.kind ≠ .OnVMUserDelete) ∧
    (Time.IsZero u.DeletionTimestamp = false → ∀ gws, Event.List (.ok gws) ∈ tr →
      (∀ g err, Event.CreateOrUpdateVMAuth g (some err) ∉ tr) →
      ∃ pre res, tr = Event.List (.ok gws) :: (pre ++ [Event.OnVMUserDelete u res]) ∧
        LoopRun M u gws pre none ∧ out = (Result.empty, res)) := by
  cases h with
  | listFail err =>
    refine ⟨fun _ ev hev => ?_, fun _ gws hl _ => ?_⟩
    · simp only [List.mem_singleton] at hev
      subst hev
      simp [Event.kind]
    · simp at hl
  | @loopFail gws0 ltr err hl =>
    refine ⟨fun _ ev hev => ?_, fun _ gws _ hok => ?_⟩
    · rcases List.mem_cons.1 hev with rfl | hev
      · simp [Event.kind]
      · rcases hl.loop_kind_mem ev hev with h | h <;> rw [h] <;> simp
    · obtain ⟨before, g, after, pre, -, -, h3, -⟩ := hl.of_some err rfl
      exact absurd (by simp [h3]) (hok g err)
  | @live gws0 ltr hl hz =>
    refine ⟨fun _ ev hev => ?_, fun hz1 => ?_⟩
    · rcases List.mem_cons.1 hev with rfl | hev
      · simp [Event.kind]
      · rcases hl.loop_kind_mem ev hev with h | h <;> rw [h] <;> simp
    · rw [hz] at hz1
      cases hz1
  | @deleted gws0 ltr res hl hz =>
    refine ⟨fun hz1 => ?_, fun _ gws hlist _ => ?_⟩
    · rw [hz] at hz1
      cases hz1
    · have hgws : gws = gws0 := by
        rcases List.mem_cons.1 hlist with h | h
        · simpa using h
        · rcases List.mem_append.1 h with h | h
          · rcases hl.loop_kind_mem _ h with h | h <;> cases h
          · simp at h
      subst hgws
      exact ⟨ltr, res, rfl, hl, rfl⟩

theorem afterFinalizer_of_deleting (inst : VMUser)
    (hZ : Time.IsZero inst.DeletionTimestamp = false) :
    inst.DeletionTimestamp ≠ none ∧ afterFinalizer inst = inst ∧ finalizerStep inst = [] := by
  have hD : inst.DeletionTimestamp ≠ none := by
    intro h
    rw [h] at hZ
    cases hZ
  exact ⟨hD, by simp [afterFinalizer, hD], by simp [finalizerStep, hD]⟩

/-- The result of `Reconcile` is the empty result with the error of the first
failed step of its trace. -/
theorem ReconcileRun.reconcile_result {M : VMUser → VMAuth → Except Error Bool} {req : Request}
    {tr : List Event} {out : Result × Option Error} (hrun : ReconcileRun M req tr out) :
    out.1 = Result.empty ∧ out.2 = firstFailure tr := by
  cases hrun with
  | getFail err =>
    refine ⟨rfl, ?_⟩
    by_cases hN : IsNotFound err = true <;> simp [firstFailure, Event.failure, hN]
  | @fetched inst btr out hl =>
    rcases hl.split with ⟨-, err, rfl, rfl⟩ | ⟨ttr, rfl, ht⟩
    · simp [firstFailure, Event.failure]
    · obtain ⟨h1, h2⟩ := ht.tail_result
      refine ⟨h1, ?_⟩
      have h3 := h2 [Event.Unlock]
      have h4 := firstFailure_finalizerStep inst (ttr ++ [Event.Unlock])
      have h5 : firstFailure (Event.Get req.NamespacedName (.ok inst) :: Event.Lock ::
          (finalizerStep inst ++ ttr ++ [Event.Unlock])) =
          firstFailure (finalizerStep inst ++ (ttr ++ [Event.Unlock])) := by
        simp [firstFailure, Event.failure]
      rw [h5, h4, h3]
      simp [firstFailure, Event.failure]

theorem firstFailure_filter (tr : List Event) :
    firstFailure (tr.filter (fun ev => !ev.isMatcherError)) = firstFailure tr := by
  induction tr with
  | nil => rfl
  | cons ev rest ih =>
    cases ev with
    | isSelectorsMatches src tgt res =>
      cases res with
      | error err =>
        simpa [firstFailure, Event.failure, Event.isMatcherError, List.filter_cons] using ih
      | ok b =>
        simpa [firstFailure, Event.failure, Event.isMatcherError, List.filter_cons] using ih
    | _ =>
      simp only [firstFailure, List.filter_cons, Event.isMatcherError, Bool.not_false, if_true,
        List.findSome?_cons] at ih ⊢
      rw [ih]

/-- The part after the finalizer step always starts with the `List` call. -/
theorem TailRun.head_List {M : VMAuth → Except Error Bool} {u : VMUser} {tr : List Event}
    {out : Result × Option Error} (h : TailRun M u tr out) :
    ∃ res rest, tr = Event.List res :: rest := by
  cases h with
  | listFail err => exact ⟨_, [], rfl⟩
  | loopFail hl => exact ⟨_, _, rfl⟩
  | live hl _ => exact ⟨_, _, rfl⟩
  | deleted res hl _ => exact ⟨_, _, rfl⟩

/-! ## Facts about runs without the erroring gateways -/

theorem reduceTrace_append (keep : VMAuth → Bool) (t1 t2 : List Event) :
    reduceTrace keep (t1 ++ t2) = reduceTrace keep t1 ++ reduceTrace keep t2 := by
  simp [reduceTrace]

theorem Sim.sim_pure {σ α : Type} (c : Collaborators σ) (u : VMUser) (a : α) :
    Sim c u (Pure.pure a : Prog α) := by
  intro s
  simp [exec_ret, reduceRun, reduceTrace]

theorem Sim.sim_bind {σ α β : Type} {c : Collaborators σ} {u : VMUser} {p : Prog α}
    {f : α → Prog β} (hp : Sim c u p) (hf : ∀ a, Sim c u (f a)) : Sim c u (p >>= f) := by
  intro s
  rw [exec_bind, exec_bind, hp s]
  cases exec c p s with
  | none => rfl
  | some x =>
    obtain ⟨a, s1, tr1⟩ := x
    simp only [reduceRun]
    rw [hf a s1]
    cases exec c (f a) s1 with
    | none => rfl
    | some y =>
      obtain ⟨b, s2, tr2⟩ := y
      simp only [reduceRun, reduceTrace_append]

theorem Sim.sim_perform {σ : Type} (c : Collaborators σ) (u : VMUser) (o : Op)
    (h1 : o ≠ .List) (h2 : ∀ src tgt ns sel, o ≠ .isSelectorsMatches src tgt ns sel) :
    Sim c u (perform o) := by
  intro s
  rw [exec_perform, exec_perform]
  cases o with
  | List => exact absurd rfl h1
  | isSelectorsMatches src tgt ns sel => exact absurd rfl (h2 src tgt ns sel)
  | Lock =>
    simp only [step]
    split <;> simp [reduceRun, reduceTrace, Event.of, Event.isMatcherError, Event.reduceList]
  | Unlock =>
    simp only [step]
    split <;> simp [reduceRun, reduceTrace, Event.of, Event.isMatcherError, Event.reduceList]
  | Get key =>
    simp [step, withoutErroring, reduceRun, reduceTrace, Event.of, Event.isMatcherError,
      Event.reduceList]
  | AddFinalizer inst =>
    simp [step, withoutErroring, reduceRun, reduceTrace, Event.of, Event.isMatcherError,
      Event.reduceList]
  | CreateOrUpdateVMAuth cr =>
    simp [step, withoutErroring, reduceRun, reduceTrace, Event.of, Event.isMatcherError,
      Event.reduceList]
  | OnVMUserDelete inst =>
    simp [step, withoutErroring, reduceRun, reduceTrace, Event.of, Event.isMatcherError,
      Event.reduceList]

theorem exec_syncVMAuthes_withoutErroring {σ : Type} (c : Collaborators σ) (u : VMUser)
    (gws : List VMAuth) (s : State σ) :
    exec (withoutErroring c u) (syncVMAuthes u (gws.filter (matcherAnswers c u))) s =
      reduceRun (matcherAnswers c u) (exec c (syncVMAuthes u gws) s) := by
  induction gws generalizing s with
  | nil => simp [syncVMAuthes, exec_ret, reduceRun, reduceTrace]
  | cons g rest ih =>
    cases hM : matchOf c u g with
    | error err =>
      have hk : matcherAnswers c u g = false := by simp [matcherAnswers, hM, isMatchError]
      simp only [List.filter_cons, hk, Bool.false_eq_true, if_false]
      rw [ih s]
      simp only [syncVMAuthes, exec_bind, exec_perform, step, matchOf_eq, hM]
      cases exec c (syncVMAuthes u rest) s with
      | none => rfl
      | some x =>
        obtain ⟨e, s1, tr⟩ := x
        simp [reduceRun, reduceTrace, Event.of, Event.isMatcherError]
    | ok b =>
      have hk : matcherAnswers c u g = true := by simp [matcherAnswers, hM, isMatchError]
      have hM1 : (withoutErroring c u).isSelectorsMatches u g g.Spec.UserNamespaceSelector
          g.Spec.UserSelector = .ok b := hM
      simp only [List.filter_cons, hk, if_true]
      cases b with
      | false =>
        simp only [syncVMAuthes, exec_bind, exec_perform, step, matchOf_eq, hM, hM1]
        rw [ih s]
        cases exec c (syncVMAuthes u rest) s with
        | none => rfl
        | some x =>
          obtain ⟨e, s1, tr⟩ := x
          simp [reduceRun, reduceTrace, Event.of, Event.isMatcherError, Event.reduceList]
      | true =>
        simp only [syncVMAuthes, exec_bind, exec_perform, step, matchOf_eq, hM, hM1]
        have hC : (withoutErroring c u).CreateOrUpdateVMAuth g s.store =
          c.CreateOrUpdateVMAuth g s.store := rfl
        rw [hC]
        cases (c.CreateOrUpdateVMAuth g s.store).1 with
        | some err =>
          simp [exec_ret, reduceRun, reduceTrace, Event.of, Event.isMatcherError,
            Event.reduceList]
        | none =>
          rw [ih]
          cases exec c (syncVMAuthes u rest)
              { store := (c.CreateOrUpdateVMAuth g s.store).2, vmAuthSyncMU := s.vmAuthSyncMU } with
          | none => rfl
          | some x =>
            obtain ⟨e, s1, tr⟩ := x
            simp [reduceRun, reduceTrace, Event.of, Event.isMatcherError, Event.reduceList]

theorem sim_listAndSync {σ : Type} (c : Collaborators σ) (u : VMUser) :
    Sim c u (listAndSync u) := by
  intro s
  simp only [listAndSync, exec_bind, exec_perform, step]
  have hL1 : ((withoutErroring c u).List s.store).2 = (c.List s.store).2 := rfl
  have hL2 : ((withoutErroring c u).List s.store).1 =
      match (c.List s.store).1 with
      | .ok gws => .ok (gws.filter (matcherAnswers c u))
      | .error err => .error err := rfl
  rw [hL1, hL2]
  cases (c.List s.store).1 with
  | error err =>
    simp [exec_ret, reduceRun, reduceTrace, Event.of, Event.isMatcherError, Event.reduceList]
  | ok gws =>
    simp only [exec_bind]
    rw [exec_syncVMAuthes_withoutErroring]
    cases exec c (syncVMAuthes u gws) { store := (c.List s.store).2, vmAuthSyncMU := s.vmAuthSyncMU } with
    | none => rfl
    | some x =>
      obtain ⟨e, s1, tr⟩ := x
      simp only [reduceRun]
      cases e with
      | some err =>
        simp [exec_ret, reduceRun, reduceTrace, Event.of, Event.isMatcherError,
          Event.reduceList]
      | none =>
        cases hZ : Time.IsZero u.DeletionTimestamp with
        | true =>
          simp [exec_ret, reduceRun, reduceTrace, Event.of, Event.isMatcherError,
            Event.reduceList]
        | false =>
          simp only [Bool.not_false, if_true, exec_bind, exec_perform, step]
          have hO : (withoutErroring c u).OnVMUserDelete u s1.store =
            c.OnVMUserDelete u s1.store := rfl
          rw [hO]
          cases (c.OnVMUserDelete u s1.store).1 with
          | some err =>
            simp [exec_ret, reduceRun, reduceTrace, Event.of, Event.isMatcherError,
              Event.reduceList]
          | none =>
            simp [exec_ret, reduceRun, reduceTrace, Event.of, Event.isMatcherError,
              Event.reduceList]

theorem sim_reconcileLocked {σ : Type} (c : Collaborators σ) (inst : VMUser) :
    Sim c (afterFinalizer inst) (reconcileLocked inst) := by
  unfold reconcileLocked
  by_cases hD : inst.DeletionTimestamp = none
  · simp only [hD, if_true]
    refine Sim.sim_bind (Sim.sim_perform c _ _ (by simp) (by simp)) ?_
    intro r
    cases r with
    | some err => exact Sim.sim_pure c _ _
    | none =>
      have := sim_listAndSync c (afterFinalizer inst)
      simpa [afterFinalizer, hD] using this
  · simp only [hD, if_false]
    have := sim_listAndSync c (afterFinalizer inst)
    simpa [afterFinalizer, hD] using this

theorem exec_Reconcile_withoutErroring {σ : Type} (c : Collaborators σ) (req : Request)
    (s : State σ) (inst : VMUser) (hG : (c.Get req.NamespacedName s.store).1 = .ok inst)
    (hfree : s.vmAuthSyncMU = false) :
    ∃ out s1 tr, exec c (Reconcile req) s = some (out, s1, tr) ∧
      exec (withoutErroring c (afterFinalizer inst)) (Reconcile req) s =
        some (out, s1, reduceTrace (matcherAnswers c (afterFinalizer inst)) tr) ∧
      ∃ body, tr = Event.Get req.NamespacedName (.ok inst) :: Event.Lock ::
          (body ++ [Event.Unlock]) ∧ LockedRun (matchOf c) inst body out := by
  obtain ⟨out, st, tr, hx, hb, hl⟩ := exec_Reconcile_fetched c req s inst hG hfree
  obtain ⟨out1, st1, tr1, hx1, hb1, -⟩ :=
    exec_Reconcile_fetched (withoutErroring c (afterFinalizer inst)) req s inst hG hfree
  have hsim := sim_reconcileLocked c inst ⟨(c.Get req.NamespacedName s.store).2, true⟩
  have hG2 : ((withoutErroring c (afterFinalizer inst)).Get req.NamespacedName s.store).2 =
    (c.Get req.NamespacedName s.store).2 := rfl
  rw [hG2, hsim, hb] at hb1
  simp only [reduceRun, Option.some.injEq, Prod.mk.injEq, State.mk.injEq, and_true] at hb1
  obtain ⟨rfl, rfl, rfl⟩ := hb1
  refine ⟨_, _, _, hx, ?_, tr, rfl, hl⟩
  rw [hx1]
  simp [reduceTrace, Event.isMatcherError, Event.reduceList]

theorem LoopRun.loop_regenerated_isMatch {M : VMAuth → Except Error Bool} {inst : VMUser}
    {gws : List VMAuth} {ltr : List Event} {e : Option Error} (h : LoopRun M inst gws ltr e) :
    ∀ g ∈ regenerated ltr, isMatch (M g) = true := by
  induction h with
  | done => simp [regenerated]
  | skip _ _ ih => simpa [regenerated, Event.regenerated] using ih
  | regen hm _ ih =>
    intro g hg
    simp only [regenerated, List.filterMap_cons, Event.regenerated, List.mem_cons] at hg
    rcases hg with rfl | hg
    · exact hm
    · exact ih g hg
  | fail hm =>
    intro g hg
    simp only [regenerated, List.filterMap_cons, Event.regenerated, List.filterMap_nil,
      List.mem_singleton] at hg
    subst hg
    exact hm

theorem TailRun.tail_regenerated_isMatch {M : VMAuth → Except Error Bool} {u : VMUser}
    {tr : List Event} {out : Result × Option Error} (h : TailRun M u tr out) :
    ∀ g ∈ regenerated tr, isMatch (M g) = true := by
  cases h with
  | listFail err => simp [regenerated, Event.regenerated]
  | loopFail hl => simpa [regenerated, Event.regenerated] using hl.loop_regenerated_isMatch
  | live hl _ => simpa [regenerated, Event.regenerated] using hl.loop_regenerated_isMatch
  | deleted res hl _ => simpa [regenerated, Event.regenerated] using hl.loop_regenerated_isMatch

theorem LockedRun.locked_regenerated_isMatch {M : VMUser → VMAuth → Except Error Bool}
    {inst : VMUser} {tr : List Event} {out : Result × Option Error}
    (h : LockedRun M inst tr out) :
    ∀ g ∈ regenerated tr, isMatch (M (afterFinalizer inst) g) = true := by
  rcases h.split with ⟨-, err, rfl, -⟩ | ⟨ttr, rfl, ht⟩
  · simp [regenerated, Event.regenerated]
  · rw [regenerated_finalizerStep]
    exact ht.tail_regenerated_isMatch

/-! ## Facts about interleaved invocations -/

theorem Body.body_pure {α : Type} (a : α) : Body (Pure.pure a : Prog α) := trivial

theorem Body.body_perform (o : Op) (h : guarded o = true) : Body (perform o) :=
  ⟨h, fun _ => trivial⟩

theorem Body.body_bind {α β : Type} {p : Prog α} {f : α → Prog β} (hp : Body p)
    (hf : ∀ a, Body (f a)) : Body (p >>= f) := by
  show Body (p.bind f)
  induction p with
  | ret a => exact hf a
  | call o k ih => exact ⟨hp.1, fun r => ih r (hp.2 r)⟩

theorem guarded_allowed {o : Op} (h : guarded o = true) :
    allowed o true = true ∧ holdingAfter o true = true := by
  cases o <;> simp_all [guarded, allowed, holdingAfter]

theorem Body.wellLocked_bind {α β : Type} {p : Prog α} {f : α → Prog β} (hp : Body p)
    (hf : ∀ a, WellLocked (f a) true) : WellLocked (p >>= f) true := by
  show WellLocked (p.bind f) true
  induction p with
  | ret a => exact hf a
  | call o k ih =>
    refine ⟨(guarded_allowed hp.1).1, fun r => ?_⟩
    rw [(guarded_allowed hp.1).2]
    exact ih r (hp.2 r)

theorem Body.body_syncVMAuthes (inst : VMUser) (gws : List VMAuth) :
    Body (VMOperator.syncVMAuthes inst gws) := by
  induction gws with
  | nil => exact Body.body_pure _
  | cons g rest ih =>
    unfold VMOperator.syncVMAuthes
    refine Body.body_bind (Body.body_perform _ rfl) (fun res => ?_)
    cases res with
    | error err => exact ih
    | ok b =>
      cases b with
      | false => exact ih
      | true =>
        refine Body.body_bind (Body.body_perform _ rfl) (fun err => ?_)
        cases err with
        | some err => exact Body.body_pure _
        | none => exact ih

theorem Body.body_listAndSync (inst : VMUser) : Body (VMOperator.listAndSync inst) := by
  unfold VMOperator.listAndSync
  refine Body.body_bind (Body.body_perform _ rfl) (fun res => ?_)
  cases res with
  | error err => exact Body.body_pure _
  | ok items =>
    refine Body.body_bind (Body.body_syncVMAuthes inst items) (fun e => ?_)
    cases e with
    | some err => exact Body.body_pure _
    | none =>
      cases hZ : Time.IsZero inst.DeletionTimestamp with
      | true =>
        simp only [hZ, Bool.not_true, Bool.false_eq_true, if_false]
        exact Body.body_pure _
      | false =>
        simp only [hZ, Bool.not_false, if_true]
        refine Body.body_bind (Body.body_perform _ rfl) (fun err => ?_)
        cases err with
        | some err => exact Body.body_pure _
        | none => exact Body.body_pure _

theorem Body.body_reconcileLocked (inst : VMUser) : Body (VMOperator.reconcileLocked inst) := by
  unfold VMOperator.reconcileLocked
  split
  · refine Body.body_bind (Body.body_perform _ rfl) (fun err => ?_)
    cases err with
    | some err => exact Body.body_pure _
    | none => exact Body.body_listAndSync _
  · exact Body.body_listAndSync _

theorem WellLocked_Reconcile (req : Request) : WellLocked (Reconcile req) false := by
  unfold Reconcile
  refine ⟨rfl, fun got => ?_⟩
  cases got with
  | error err =>
    show WellLocked (if IsNotFound err then _ else _) false
    split <;> rfl
  | ok inst =>
    refine ⟨rfl, fun _ => ?_⟩
    show WellLocked (reconcileLocked inst >>= fun out =>
      perform .Unlock >>= fun _ => pure out) true
    refine Body.wellLocked_bind (Body.body_reconcileLocked inst) (fun out => ?_)
    show WellLocked (Prog.call .Unlock (fun _ => Prog.ret out)) true
    exact ⟨rfl, fun _ => rfl⟩

theorem countP_set_holding (l : List Thread) (i : Nat) (t t1 : Thread) (h : l[i]? = some t) :
    (l.set i t1).countP (fun t => t.holding) + (if t.holding then 1 else 0) =
      l.countP (fun t => t.holding) + (if t1.holding then 1 else 0) := by
  induction l generalizing i with
  | nil => simp at h
  | cons a l ih =>
    cases i with
    | zero =>
      simp only [List.getElem?_cons_zero, Option.some.injEq] at h
      subst h
      simp only [List.set_cons_zero, List.countP_cons]
      omega
    | succ j =>
      simp only [List.getElem?_cons_succ] at h
      have := ih j h
      simp only [List.set_cons_succ, List.countP_cons]
      omega

theorem step_mu {σ : Type} (c : Collaborators σ) (o : Op) (st st1 : State σ) (r : Resp o)
    (h : step c o st = some (r, st1)) :
    (o = .Lock → st.vmAuthSyncMU = false ∧ st1.vmAuthSyncMU = true) ∧
    (o = .Unlock → st.vmAuthSyncMU = true ∧ st1.vmAuthSyncMU = false) ∧
    (o ≠ .Lock → o ≠ .Unlock → st1.vmAuthSyncMU = st.vmAuthSyncMU) := by
  cases o with
  | Lock =>
    simp only [step] at h
    split at h
    · cases h
    · rename_i hmu
      simp only [Option.some.injEq, Prod.mk.injEq] at h
      obtain ⟨-, rfl⟩ := h
      simp_all
  | Unlock =>
    simp only [step] at h
    split at h
    · rename_i hmu
      simp only [Option.some.injEq, Prod.mk.injEq] at h
      obtain ⟨-, rfl⟩ := h
      simp_all
    · cases h
  | _ =>
    simp only [step, Option.some.injEq, Prod.mk.injEq] at h
    obtain ⟨-, rfl⟩ := h
    simp

theorem Inv.inv_advance {σ : Type} (c : Collaborators σ) (i : Nat) (sys : System σ)
    (h : Inv sys) : Inv (sys.advance c i) := by
  unfold System.advance
  cases hi : sys.threads[i]? with
  | none => exact h
  | some t =>
    simp only []
    cases ha : t.advance c sys.state with
    | none => exact h
    | some x =>
      obtain ⟨st1, t1⟩ := x
      simp only []
      have ht : t ∈ sys.threads := List.getElem?_mem hi
      have hw := h.1 t ht
      unfold Thread.advance at ha
      cases hp : t.prog with
      | ret a => simp [hp] at ha
      | call o k =>
        rw [hp] at ha hw
        simp only [] at ha
        cases hs : step c o sys.state with
        | none => simp [hs] at ha
        | some y =>
          obtain ⟨r, st2⟩ := y
          simp only [hs, Option.some.injEq, Prod.mk.injEq] at ha
          obtain ⟨rfl, rfl⟩ := ha
          obtain ⟨hal, hk⟩ := hw
          obtain ⟨m1, m2, m3⟩ := step_mu c o sys.state st2 r hs
          have hcount := countP_set_holding sys.threads i t
            ⟨k r, holdingAfter o t.holding⟩ hi
          have hinv := h.2
          simp only [System.inSection] at hinv
          refine ⟨?_, ?_⟩
          · intro t2 ht2
            rcases List.mem_or_eq_of_mem_set ht2 with h2 | h2
            · exact h.1 t2 h2
            · subst h2
              exact hk r
          · simp only [System.inSection]
            cases o with
            | Lock =>
              obtain ⟨n1, n2⟩ := m1 rfl
              simp only [allowed, Bool.not_eq_true'] at hal
              simp only [holdingAfter, n1, n2, hal, if_true, Bool.false_eq_true, if_false]
                at hcount hinv ⊢
              omega
            | Unlock =>
              obtain ⟨n1, n2⟩ := m2 rfl
              simp only [allowed] at hal
              simp only [holdingAfter, n1, n2, hal, if_true, Bool.false_eq_true, if_false]
                at hcount hinv ⊢
              omega
            | _ =>
              have n := m3 (by simp) (by simp)
              simp only [holdingAfter, n] at hcount ⊢
              rw [← hinv]
              omega

theorem Inv.inv_start {σ : Type} (reqs : List Request) (store : σ) :
    Inv (start reqs store) := by
  refine ⟨?_, ?_⟩
  · intro t ht
    simp only [VMOperator.start, List.mem_map] at ht
    obtain ⟨req, -, rfl⟩ := ht
    exact WellLocked_Reconcile req
  · simp [System.inSection, VMOperator.start, List.countP_map, Function.comp_def]

theorem Inv.inv_move {σ : Type} (c : Collaborators σ) (m : Move σ) (sys : System σ)
    (h : Inv sys) : Inv (sys.move c m) := by
  cases m with
  | pick i => exact h.inv_advance c i
  | disturb f => exact h

theorem Inv.inv_runSchedule {σ : Type} (c : Collaborators σ) (sched : List (Move σ))
    (sys : System σ) (h : Inv sys) : Inv (runSchedule c sched sys) := by
  induction sched generalizing sys with
  | nil => exact h
  | cons m rest ih => exact ih _ (h.inv_move c m)

/-! ## The claims -/

/-- C1: when `Get` answers with a not-found error, `Reconcile` returns the empty
result and a nil error, and the `Get` call is the only call it has made: the
mutex is untouched and the store is as `Get` left it (no `Lock`, `AddFinalizer`,
`List`, `CreateOrUpdateVMAuth` or `OnVMUserDelete` call). -/
theorem Reconcile_not_found {σ : Type} (c : Collaborators σ) (req : Request) (s : State σ)
    (err : Error) (hG : (c.Get req.NamespacedName s.store).1 = .error err)
    (hN : IsNotFound err = true) :
    exec c (Reconcile req) s =
      some ((Result.empty, none),
        { store := (c.Get req.NamespacedName s.store).2, vmAuthSyncMU := s.vmAuthSyncMU },
        [Event.Get req.NamespacedName (.error err)]) := by
  rw [exec_Reconcile_getFail c req s err hG]
  simp [hN]

/-- C1 on a cluster without `u1`: the only call is the `Get` that answers
not-found. -/
theorem Reconcile_not_found_witness :
    (clusterCollaborators.Get reqU1.NamespacedName cluster0.store).1 =
        .error ⟨"NotFound", "u1"⟩ ∧
      IsNotFound ⟨"NotFound", "u1"⟩ = true ∧
      exec clusterCollaborators (Reconcile reqU1) cluster0 =
        some ((Result.empty, none),
          { store := (clusterCollaborators.Get reqU1.NamespacedName cluster0.store).2,
            vmAuthSyncMU := cluster0.vmAuthSyncMU },
          [Event.Get reqU1.NamespacedName (.error ⟨"NotFound", "u1"⟩)]) :=
  ⟨rfl, rfl, Reconcile_not_found clusterCollaborators reqU1 cluster0 ⟨"NotFound", "u1"⟩ rfl rfl⟩

/-- C2: for every fetched user, `Reconcile` calls `List` right after the
finalizer step unless `AddFinalizer` failed (in which case the trace is `Get`,
`Lock`, the failed `AddFinalizer`, `Unlock`).  When `List` answers `gws` and no
regeneration fails, the matcher is called once on every listed gateway in list
order and the `CreateOrUpdateVMAuth` calls are exactly the listed gateways on
which the matcher answers `(true, nil)`, in list order, one call each. -/
theorem Reconcile_regenerates_matching {σ : Type} (c : Collaborators σ) (req : Request)
    (s : State σ) (inst : VMUser) (hG : (c.Get req.NamespacedName s.store).1 = .ok inst)
    (hfree : s.vmAuthSyncMU = false) :
    ∃ out s1 tr, exec c (Reconcile req) s = some (out, s1, tr) ∧
      ((∃ err, inst.DeletionTimestamp = none ∧
          tr = [Event.Get req.NamespacedName (.ok inst), Event.Lock,
            Event.AddFinalizer inst (some err), Event.Unlock]) ∨
        (∃ res rest,
          tr = Event.Get req.NamespacedName (.ok inst) :: Event.Lock ::
            (finalizerStep inst ++ Event.List res :: (rest ++ [Event.Unlock])) ∧
          ∀ gws, res = .ok gws →
            (∀ g err, Event.CreateOrUpdateVMAuth g (some err) ∉ rest) →
            matched rest = gws ∧
            regenerated rest =
              gws.filter (fun g => isMatch (matchOf c (afterFinalizer inst) g)))) ∧
      ∀ gws, Event.List (.ok gws) ∈ tr →
        (∀ g err, Event.CreateOrUpdateVMAuth g (some err) ∉ tr) →
        matched tr = gws ∧
        regenerated tr = gws.filter (fun g => isMatch (matchOf c (afterFinalizer inst) g)) := by
  obtain ⟨out, st, tr, hx, -, hl⟩ := exec_Reconcile_fetched c req s inst hG hfree
  refine ⟨out, ⟨st, false⟩, _, hx, ?_, ?_⟩
  · rcases hl.split with ⟨hD, err, rfl, -⟩ | ⟨ttr, rfl, ht⟩
    · exact Or.inl ⟨err, hD, rfl⟩
    · obtain ⟨res, rest, rfl⟩ := ht.head_List
      refine Or.inr ⟨res, rest, by simp, ?_⟩
      intro gws hres hok
      subst hres
      have hok1 : ∀ g err, Event.CreateOrUpdateVMAuth g (some err) ∉
          Event.List (.ok gws) :: rest := by
        intro g err h
        rcases List.mem_cons.1 h with h | h
        · cases h
        · exact hok g err h
      obtain ⟨h1, h2⟩ := ht.regenerated_eq gws (List.mem_cons_self _ _) hok1
      constructor
      · simpa [matched, Event.matched] using h1
      · simpa [regenerated, Event.regenerated] using h2
  · intro gws hlist hok
    rcases hl.split with ⟨-, err, rfl, -⟩ | ⟨ttr, rfl, ht⟩
    · simp at hlist
    · have hlist1 : Event.List (.ok gws) ∈ ttr :=
        mem_tail_of_mem hlist (by simp [Event.kind]) (by simp [Event.kind])
          (by simp [Event.kind]) (by simp [Event.kind])
      have hok1 : ∀ g err, Event.CreateOrUpdateVMAuth g (some err) ∉ ttr := by
        intro g err h
        exact hok g err (by simp [h])
      obtain ⟨h1, h2⟩ := ht.regenerated_eq gws hlist1 hok1
      constructor
      · simpa [matched, Event.matched] using
          (matched_finalizerStep inst ttr).trans h1
      · simpa [regenerated, Event.regenerated] using
          (regenerated_finalizerStep inst ttr).trans h2

/-- C2 on `u1` with `g1` and `g2` listed: `g1` is regenerated once, `g2` is
handed to the matcher and left alone. -/
theorem Reconcile_regenerates_matching_witness :
    summary (exec clusterCollaborators (Reconcile reqU1) cluster1) =
        some ((Result.empty, none), [g1],
          [.Get, .Lock, .AddFinalizer, .List, .isSelectorsMatches, .CreateOrUpdateVMAuth,
            .isSelectorsMatches, .Unlock],
          ["finalizer:u1", "vmauth:g1"]) ∧
      ∃ out s1 tr, exec clusterCollaborators (Reconcile reqU1) cluster1 = some (out, s1, tr) ∧
        ((∃ err, u1.DeletionTimestamp = none ∧
            tr = [Event.Get reqU1.NamespacedName (.ok u1), Event.Lock,
              Event.AddFinalizer u1 (some err), Event.Unlock]) ∨
          (∃ res rest,
            tr = Event.Get reqU1.NamespacedName (.ok u1) :: Event.Lock ::
              (finalizerStep u1 ++ Event.List res :: (rest ++ [Event.Unlock])) ∧
            ∀ gws, res = .ok gws →
              (∀ g err, Event.CreateOrUpdateVMAuth g (some err) ∉ rest) →
              matched rest = gws ∧
              regenerated rest =
                gws.filter
                  (fun g => isMatch (matchOf clusterCollaborators (afterFinalizer u1) g)))) ∧
        ∀ gws, Event.List (.ok gws) ∈ tr →
          (∀ g err, Event.CreateOrUpdateVMAuth g (some err) ∉ tr) →
          matched tr = gws ∧
          regenerated tr =
            gws.filter (fun g => isMatch (matchOf clusterCollaborators (afterFinalizer u1) g)) :=
  ⟨by decide, Reconcile_regenerates_matching clusterCollaborators reqU1 cluster1 u1 rfl rfl⟩

/-- C3: if `CreateOrUpdateVMAuth` fails for a gateway `g`, `Reconcile` returns
that error at once: the failed call is the last one before the deferred
`Unlock`, no earlier regeneration failed, `OnVMUserDelete` is not called, and of
the listed gateways only those up to and including `g` were handed to the
matcher or regenerated. -/
theorem Reconcile_regeneration_failure_aborts {σ : Type} (c : Collaborators σ) (req : Request)
    (s : State σ) (inst : VMUser) (hG : (c.Get req.NamespacedName s.store).1 = .ok inst)
    (hfree : s.vmAuthSyncMU = false) :
    ∃ out s1 tr, exec c (Reconcile req) s = some (out, s1, tr) ∧
      ∀ g err, Event.CreateOrUpdateVMAuth g (some err) ∈ tr →
        out = (Result.empty, some err) ∧
        (∃ pre, tr = pre ++ [Event.CreateOrUpdateVMAuth g (some err), Event.Unlock] ∧
          ∀ g1 err1, Event.CreateOrUpdateVMAuth g1 (some err1) ∉ pre) ∧
        (∀ ev ∈ tr, ev.kind ≠ .OnVMUserDelete) ∧
        ∃ gws before after, Event.List (.ok gws) ∈ tr ∧ gws = before ++ g :: after ∧
          matched tr = before ++ [g] ∧
          regenerated tr =
            before.filter (fun g => isMatch (matchOf c (afterFinalizer inst) g)) ++ [g] := by
  obtain ⟨out, st, tr, hx, -, hl⟩ := exec_Reconcile_fetched c req s inst hG hfree
  refine ⟨out, ⟨st, false⟩, _, hx, ?_⟩
  intro g err hmem
  rcases hl.split with ⟨-, err0, rfl, -⟩ | ⟨ttr, rfl, ht⟩
  · simp at hmem
  · have hmem1 : Event.CreateOrUpdateVMAuth g (some err) ∈ ttr :=
      mem_tail_of_mem hmem (by simp [Event.kind]) (by simp [Event.kind])
        (by simp [Event.kind]) (by simp [Event.kind])
    obtain ⟨hout, gws, before, after, pre, hgws, hm, rfl, hpre⟩ :=
      ht.of_regen_fail g err hmem1
    obtain ⟨p1, p2, p3, -⟩ := hpre.of_none rfl
    refine ⟨hout, ⟨Event.Get req.NamespacedName (.ok inst) :: Event.Lock ::
      (finalizerStep inst ++ Event.List (.ok gws) ::
        (pre ++ [Event.isSelectorsMatches (afterFinalizer inst) g
          (matchOf c (afterFinalizer inst) g)])), ?_, ?_⟩, ?_, gws, before, after, ?_, hgws, ?_, ?_⟩
    · simp
    · intro g1 err1 h
      simp only [List.mem_cons, List.mem_append, List.not_mem_nil, or_false] at h
      rcases h with h | h | h | h | h | h
      · cases h
      · cases h
      · exact finalizerStep_not_mem inst _ (by simp [Event.kind]) h
      · cases h
      · exact p3 g1 err1 h
      · cases h
    · intro ev hev
      simp only [List.mem_cons, List.mem_append, List.not_mem_nil, or_false] at hev
      rcases hev with h | h | (h | h | h | h | h) | h
      · subst h; simp [Event.kind]
      · subst h; simp [Event.kind]
      · rw [finalizerStep_kind inst ev h]; simp
      · subst h; simp [Event.kind]
      · rcases hpre.loop_kind_mem ev h with h | h <;> rw [h] <;> simp
      · subst h; simp [Event.kind]
      · subst h; simp [Event.kind]
      · subst h; simp [Event.kind]
    · simp
    · have := matched_finalizerStep inst (Event.List (.ok gws) ::
        (pre ++ [Event.isSelectorsMatches (afterFinalizer inst) g
          (matchOf c (afterFinalizer inst) g),
          Event.CreateOrUpdateVMAuth g (some err)]))
      simp only [matched, List.filterMap_cons, List.filterMap_append, Event.matched,
        List.filterMap_nil, List.append_nil] at this p1 ⊢
      rw [this, p1]
    · have := regenerated_finalizerStep inst (Event.List (.ok gws) ::
        (pre ++ [Event.isSelectorsMatches (afterFinalizer inst) g
          (matchOf c (afterFinalizer inst) g),
          Event.CreateOrUpdateVMAuth g (some err)]))
      simp only [regenerated, List.filterMap_cons, List.filterMap_append, Event.regenerated,
        List.filterMap_nil, List.append_nil] at this p2 ⊢
      rw [this, p2]

/-- C3 on `u1` with `g1` listed before `g4`, both matching, where regenerating
`g1` fails: `g4` is neither matched nor regenerated and the error is returned. -/
theorem Reconcile_regeneration_failure_aborts_witness :
    summary (exec clusterCollaborators (Reconcile reqU1) cluster3) =
        some ((Result.empty, some ⟨"Internal", "g1"⟩), [g1],
          [.Get, .Lock, .AddFinalizer, .List, .isSelectorsMatches, .CreateOrUpdateVMAuth,
            .Unlock],
          ["finalizer:u1"]) ∧
      ∃ out s1 tr, exec clusterCollaborators (Reconcile reqU1) cluster3 = some (out, s1, tr) ∧
        ∀ g err, Event.CreateOrUpdateVMAuth g (some err) ∈ tr →
          out = (Result.empty, some err) ∧
          (∃ pre, tr = pre ++ [Event.CreateOrUpdateVMAuth g (some err), Event.Unlock] ∧
            ∀ g1 err1, Event.CreateOrUpdateVMAuth g1 (some err1) ∉ pre) ∧
          (∀ ev ∈ tr, ev.kind ≠ .OnVMUserDelete) ∧
          ∃ gws before after, Event.List (.ok gws) ∈ tr ∧ gws = before ++ g :: after ∧
            matched tr = before ++ [g] ∧
            regenerated tr =
              before.filter
                (fun g => isMatch (matchOf clusterCollaborators (afterFinalizer u1) g)) ++ [g] :=
  ⟨by decide,
    Reconcile_regeneration_failure_aborts clusterCollaborators reqU1 cluster3 u1 rfl rfl⟩

/-- C4: a gateway on which the matcher answers with an error is never
regenerated, a matcher error is never counted as a failed step, and the run is
the run over the same `List` answers with the erroring gateways removed: same
result and error, same final state, and the same calls with the same answers
apart from the erroring matcher calls themselves. -/
theorem Reconcile_skips_matcher_errors {σ : Type} (c : Collaborators σ) (req : Request)
    (s : State σ) (inst : VMUser) (hG : (c.Get req.NamespacedName s.store).1 = .ok inst)
    (hfree : s.vmAuthSyncMU = false) :
    ∃ out s1 tr, exec c (Reconcile req) s = some (out, s1, tr) ∧
      exec (withoutErroring c (afterFinalizer inst)) (Reconcile req) s =
        some (out, s1, reduceTrace (matcherAnswers c (afterFinalizer inst)) tr) ∧
      (∀ g ∈ regenerated tr, isMatchError (matchOf c (afterFinalizer inst) g) = false) ∧
      (∀ ev ∈ tr, ev.isMatcherError = true → ev.failure = none) ∧
      out.2 = firstFailure (tr.filter (fun ev => !ev.isMatcherError)) := by
  obtain ⟨out, s1, tr, hx, hx1, body, rfl, hl⟩ :=
    exec_Reconcile_withoutErroring c req s inst hG hfree
  refine ⟨out, s1, _, hx, hx1, ?_, ?_, ?_⟩
  · intro g hg
    have hg1 : g ∈ regenerated body := by
      simpa [regenerated, Event.regenerated] using hg
    have := hl.locked_regenerated_isMatch g hg1
    cases hm : matchOf c (afterFinalizer inst) g with
    | error err => simp [hm, isMatch] at this
    | ok b => rfl
  · intro ev _ hev
    cases ev with
    | isSelectorsMatches src tgt res => rfl
    | _ => simp [Event.isMatcherError] at hev
  · rw [firstFailure_filter]
    exact (ReconcileRun.reconcile_result (ReconcileRun.fetched hl)).2

/-- C4 on `u1` with the malformed `g3` listed before `g1` and `g2`: the pass goes
on after `g3`, regenerates `g1` and returns a nil error. -/
theorem Reconcile_skips_matcher_errors_witness :
    summary (exec clusterCollaborators (Reconcile reqU1) cluster4) =
        some ((Result.empty, none), [g1],
          [.Get, .Lock, .AddFinalizer, .List, .isSelectorsMatches, .isSelectorsMatches,
            .CreateOrUpdateVMAuth, .isSelectorsMatches, .Unlock],
          ["finalizer:u1", "vmauth:g1"]) ∧
      isMatchError (matchOf clusterCollaborators (afterFinalizer u1) g3) = true ∧
      ∃ out s1 tr, exec clusterCollaborators (Reconcile reqU1) cluster4 = some (out, s1, tr) ∧
        exec (withoutErroring clusterCollaborators (afterFinalizer u1)) (Reconcile reqU1)
            cluster4 =
          some (out, s1,
            reduceTrace (matcherAnswers clusterCollaborators (afterFinalizer u1)) tr) ∧
        (∀ g ∈ regenerated tr,
          isMatchError (matchOf clusterCollaborators (afterFinalizer u1) g) = false) ∧
        (∀ ev ∈ tr, ev.isMatcherError = true → ev.failure = none) ∧
        out.2 = firstFailure (tr.filter (fun ev => !ev.isMatcherError)) :=
  ⟨by decide, by decide,
    Reconcile_skips_matcher_errors clusterCollaborators reqU1 cluster4 u1 rfl rfl⟩

/-- C5: for a fetched user whose `DeletionTimestamp` is nil, `AddFinalizer` is
the first call after `Lock`; every later call (`List`, the matcher,
`CreateOrUpdateVMAuth`) is made only after `AddFinalizer` answered nil, and if
`AddFinalizer` fails `Reconcile` returns that error having made no further call
except the deferred `Unlock`. -/
theorem Reconcile_adds_finalizer_first {σ : Type} (c : Collaborators σ) (req : Request)
    (s : State σ) (inst : VMUser) (hG : (c.Get req.NamespacedName s.store).1 = .ok inst)
    (hD : inst.DeletionTimestamp = none) (hfree : s.vmAuthSyncMU = false) :
    ∃ out s1 res rest, exec c (Reconcile req) s =
        some (out, s1, Event.Get req.NamespacedName (.ok inst) :: Event.Lock ::
          Event.AddFinalizer inst res :: (rest ++ [Event.Unlock])) ∧
      (∀ err, res = some err → rest = [] ∧ out = (Result.empty, some err)) ∧
      (∀ ev ∈ rest, res = none ∧ (ev.kind = .List ∨ ev.kind = .isSelectorsMatches ∨
        ev.kind = .CreateOrUpdateVMAuth ∨ ev.kind = .OnVMUserDelete)) := by
  obtain ⟨out, st, tr, hx, -, hl⟩ := exec_Reconcile_fetched c req s inst hG hfree
  rcases hl.split with ⟨-, err, rfl, rfl⟩ | ⟨ttr, rfl, ht⟩
  · refine ⟨_, ⟨st, false⟩, some err, [], hx, ?_, ?_⟩
    · intro err1 h
      cases h
      exact ⟨rfl, rfl⟩
    · intro ev hev
      cases hev
  · refine ⟨out, ⟨st, false⟩, none, ttr, ?_, ?_, ?_⟩
    · simpa [finalizerStep, hD] using hx
    · intro err h
      cases h
    · intro ev hev
      exact ⟨rfl, ht.tail_kind_mem ev hev⟩

/-- C5 on `u1`, whose `DeletionTimestamp` is nil. -/
theorem Reconcile_adds_finalizer_first_witness :
    u1.DeletionTimestamp = none ∧
      ∃ out s1 res rest, exec clusterCollaborators (Reconcile reqU1) cluster1 =
          some (out, s1, Event.Get reqU1.NamespacedName (.ok u1) :: Event.Lock ::
            Event.AddFinalizer u1 res :: (rest ++ [Event.Unlock])) ∧
        (∀ err, res = some err → rest = [] ∧ out = (Result.empty, some err)) ∧
        (∀ ev ∈ rest, res = none ∧ (ev.kind = .List ∨ ev.kind = .isSelectorsMatches ∨
          ev.kind = .CreateOrUpdateVMAuth ∨ ev.kind = .OnVMUserDelete)) :=
  ⟨rfl, Reconcile_adds_finalizer_first clusterCollaborators reqU1 cluster1 u1 rfl rfl rfl⟩

/-- C6: for a fetched user with a non-zero `DeletionTimestamp`, `AddFinalizer`
is never called and `List` is always called, right after `Lock`; when `List`
succeeds and no regeneration fails, `OnVMUserDelete` is called exactly once, as
the last call before the deferred `Unlock` (so after every regeneration), and
`Reconcile` returns the empty result with what `OnVMUserDelete` answered (nil on
success, its error otherwise).  For a user whose `DeletionTimestamp` is nil or
zero, `OnVMUserDelete` is never called. -/
theorem Reconcile_cleanup_on_deletion {σ : Type} (c : Collaborators σ) (req : Request)
    (s : State σ) (inst : VMUser) (hG : (c.Get req.NamespacedName s.store).1 = .ok inst)
    (hfree : s.vmAuthSyncMU = false) :
    ∃ out s1 tr, exec c (Reconcile req) s = some (out, s1, tr) ∧
      (Time.IsZero inst.DeletionTimestamp = true → ∀ ev ∈ tr, ev.kind ≠ .OnVMUserDelete) ∧
      (Time.IsZero inst.DeletionTimestamp = false →
        (∀ ev ∈ tr, ev.kind ≠ .AddFinalizer) ∧
        (∃ lres rest,
          tr = Event.Get req.NamespacedName (.ok inst) :: Event.Lock ::
            Event.List lres :: (rest ++ [Event.Unlock]) ∧
          ∀ gws, lres = .ok gws →
            (∀ g err, Event.CreateOrUpdateVMAuth g (some err) ∉ rest) →
            ∃ ltr res, rest = ltr ++ [Event.OnVMUserDelete inst res] ∧
              (∀ ev ∈ ltr, ev.kind ≠ .OnVMUserDelete) ∧
              out = (Result.empty, res)) ∧
        ∀ gws, Event.List (.ok gws) ∈ tr →
          (∀ g err, Event.CreateOrUpdateVMAuth g (some err) ∉ tr) →
          ∃ pre res, tr = pre ++ [Event.OnVMUserDelete inst res, Event.Unlock] ∧
            (∀ ev ∈ pre, ev.kind ≠ .OnVMUserDelete) ∧
            regenerated pre = regenerated tr ∧
            out = (Result.empty, res)) := by
  obtain ⟨out, st, tr, hx, -, hl⟩ := exec_Reconcile_fetched c req s inst hG hfree
  refine ⟨out, ⟨st, false⟩, _, hx, ?_, ?_⟩
  · intro hZ ev hev
    rcases hl.split with ⟨-, err, rfl, -⟩ | ⟨ttr, rfl, ht⟩
    · simp only [List.mem_cons, List.mem_append, List.not_mem_nil, or_false] at hev
      rcases hev with h | h | h | h <;> subst h <;> simp [Event.kind]
    · intro hk
      have hev1 : ev ∈ ttr := mem_tail_of_mem hev (by simp [hk]) (by simp [hk])
        (by simp [hk]) (by simp [hk])
      exact ht.cleanup.1 (by rw [afterFinalizer_DeletionTimestamp]; exact hZ) ev hev1 hk
  · intro hZ
    obtain ⟨hD, hU, hF⟩ := afterFinalizer_of_deleting inst hZ
    rcases hl.split with ⟨hD0, -⟩ | ⟨ttr, rfl, ht⟩
    · exact absurd hD0 hD
    · rw [hU] at ht
      rw [hF]
      refine ⟨?_, ?_, ?_⟩
      · intro ev hev
        simp only [List.mem_cons, List.mem_append, List.not_mem_nil, false_or, or_false] at hev
        rcases hev with h | h | h | h
        · subst h; simp [Event.kind]
        · subst h; simp [Event.kind]
        · rcases ht.tail_kind_mem ev h with h | h | h | h <;> rw [h] <;> simp
        · subst h; simp [Event.kind]
      · obtain ⟨lres, rest, hrest⟩ := ht.head_List
        subst hrest
        refine ⟨lres, rest, by simp, ?_⟩
        intro gws hres hok
        subst hres
        have hok1 : ∀ g err, Event.CreateOrUpdateVMAuth g (some err) ∉
            Event.List (.ok gws) :: rest := by
          intro g err h
          rcases List.mem_cons.1 h with h | h
          · cases h
          · exact hok g err h
        obtain ⟨pre, res, heq, hpre, hout⟩ :=
          ht.cleanup.2 hZ gws (List.mem_cons_self _ _) hok1
        have hrest : rest = pre ++ [Event.OnVMUserDelete inst res] := by
          simpa using heq
        refine ⟨pre, res, hrest, ?_, hout⟩
        intro ev hev
        rcases hpre.loop_kind_mem ev hev with h | h <;> rw [h] <;> simp
      · intro gws hlist hok
        have hlist1 : Event.List (.ok gws) ∈ ttr := by
          simp only [List.mem_cons, List.mem_append, List.not_mem_nil, false_or,
            or_false] at hlist
          rcases hlist with h | h | h | h
          · cases h
          · cases h
          · exact h
          · cases h
        have hok1 : ∀ g err, Event.CreateOrUpdateVMAuth g (some err) ∉ ttr := by
          intro g err h
          exact hok g err (by simp [h])
        obtain ⟨pre, res, rfl, hpre, hout⟩ := ht.cleanup.2 hZ gws hlist1 hok1
        refine ⟨Event.Get req.NamespacedName (.ok inst) :: Event.Lock ::
          Event.List (.ok gws) :: pre, res, by simp, ?_, ?_, hout⟩
        · intro ev hev
          simp only [List.mem_cons] at hev
          rcases hev with h | h | h | h
          · subst h; simp [Event.kind]
          · subst h; simp [Event.kind]
          · subst h; simp [Event.kind]
          · rcases hpre.loop_kind_mem ev h with h | h <;> rw [h] <;> simp
        · simp [regenerated, Event.regenerated]

/-- C6 on `u1Deleting`: `g1` is regenerated, then `OnVMUserDelete` is called
once and the result is terminal success. -/
theorem Reconcile_cleanup_on_deletion_witness :
    Time.IsZero u1Deleting.DeletionTimestamp = false ∧
      summary (exec clusterCollaborators (Reconcile reqU1) cluster6) =
        some ((Result.empty, none), [g1],
          [.Get, .Lock, .List, .isSelectorsMatches, .CreateOrUpdateVMAuth,
            .isSelectorsMatches, .OnVMUserDelete, .Unlock],
          ["vmauth:g1", "delete:u1"]) ∧
      ∃ out s1 tr, exec clusterCollaborators (Reconcile reqU1) cluster6 = some (out, s1, tr) ∧
        (Time.IsZero u1Deleting.DeletionTimestamp = true →
          ∀ ev ∈ tr, ev.kind ≠ .OnVMUserDelete) ∧
        (Time.IsZero u1Deleting.DeletionTimestamp = false →
          (∀ ev ∈ tr, ev.kind ≠ .AddFinalizer) ∧
          (∃ lres rest,
            tr = Event.Get reqU1.NamespacedName (.ok u1Deleting) :: Event.Lock ::
              Event.List lres :: (rest ++ [Event.Unlock]) ∧
            ∀ gws, lres = .ok gws →
              (∀ g err, Event.CreateOrUpdateVMAuth g (some err) ∉ rest) →
              ∃ ltr res, rest = ltr ++ [Event.OnVMUserDelete u1Deleting res] ∧
                (∀ ev ∈ ltr, ev.kind ≠ .OnVMUserDelete) ∧
                out = (Result.empty, res)) ∧
          ∀ gws, Event.List (.ok gws) ∈ tr →
            (∀ g err, Event.CreateOrUpdateVMAuth g (some err) ∉ tr) →
            ∃ pre res, tr = pre ++ [Event.OnVMUserDelete u1Deleting res, Event.Unlock] ∧
              (∀ ev ∈ pre, ev.kind ≠ .OnVMUserDelete) ∧
              regenerated pre = regenerated tr ∧
              out = (Result.empty, res)) :=
  ⟨rfl, by decide,
    Reconcile_cleanup_on_deletion clusterCollaborators reqU1 cluster6 u1Deleting rfl rfl⟩

/-- C7 (as stated) fails: `u1Unmarked` has deletion requested and no finalizer
marker, yet reconciling it regenerates `g1` and calls `OnVMUserDelete`, which
mutates the example store. -/
theorem deleting_without_marker_is_not_noop :
    (clusterCollaborators.Get reqU1.NamespacedName cluster7.store).1 = .ok u1Unmarked ∧
      Time.IsZero u1Unmarked.DeletionTimestamp = false ∧
      u1Unmarked.Finalizers.contains FinalizerName = false ∧
      summary (exec clusterCollaborators (Reconcile reqU1) cluster7) =
        some ((Result.empty, none), [g1],
          [.Get, .Lock, .List, .isSelectorsMatches, .CreateOrUpdateVMAuth,
            .isSelectorsMatches, .OnVMUserDelete, .Unlock],
          ["vmauth:g1", "delete:u1"]) :=
  ⟨rfl, rfl, by decide, by decide⟩

/-- C7 (amended): for a fetched user with a non-zero `DeletionTimestamp` that
does not carry the finalizer marker, `Reconcile` never calls `AddFinalizer` but
is not a no-op: it calls `List` right after `Lock`, and when `List` succeeds and
no regeneration fails it has called the matcher on every listed gateway,
regenerated the matching ones, called `OnVMUserDelete` on the user as the last
call before `Unlock`, and returns the empty result with what `OnVMUserDelete`
answered. -/
theorem Reconcile_deleting_without_marker {σ : Type} (c : Collaborators σ) (req : Request)
    (s : State σ) (inst : VMUser) (hG : (c.Get req.NamespacedName s.store).1 = .ok inst)
    (hZ : Time.IsZero inst.DeletionTimestamp = false)
    (_hM : inst.Finalizers.contains FinalizerName = false) (hfree : s.vmAuthSyncMU = false) :
    ∃ out s1 res rest, exec c (Reconcile req) s =
        some (out, s1, Event.Get req.NamespacedName (.ok inst) :: Event.Lock ::
          Event.List res :: (rest ++ [Event.Unlock])) ∧
      (∀ ev ∈ rest, ev.kind ≠ .AddFinalizer) ∧
      ∀ gws, res = .ok gws → (∀ g err, Event.CreateOrUpdateVMAuth g (some err) ∉ rest) →
        ∃ ltr cres, rest = ltr ++ [Event.OnVMUserDelete inst cres] ∧
          matched ltr = gws ∧
          regenerated ltr = gws.filter (fun g => isMatch (matchOf c inst g)) ∧
          out = (Result.empty, cres) := by
  obtain ⟨out, st, tr, hx, -, hl⟩ := exec_Reconcile_fetched c req s inst hG hfree
  obtain ⟨hD, hU, hF⟩ := afterFinalizer_of_deleting inst hZ
  rcases hl.split with ⟨hD0, -⟩ | ⟨ttr, rfl, ht⟩
  · exact absurd hD0 hD
  · rw [hU] at ht
    rw [hF, List.nil_append] at hx
    have hkind := ht.tail_kind_mem
    cases ht with
    | listFail err =>
      refine ⟨_, ⟨st, false⟩, .error err, [], hx, by simp, ?_⟩
      intro gws h
      cases h
    | @loopFail gws0 ltr err hlr =>
      refine ⟨_, ⟨st, false⟩, .ok gws0, ltr, by simpa using hx, ?_, ?_⟩
      · intro ev hev
        rcases hlr.loop_kind_mem ev hev with h | h <;> rw [h] <;> simp
      · intro gws _ hok
        obtain ⟨before, g, after, pre, -, -, h3, -⟩ := hlr.of_some err rfl
        exact absurd (by simp [h3]) (hok g err)
    | @live gws0 ltr hlr hz =>
      rw [hZ] at hz
      cases hz
    | @deleted gws0 ltr res hlr hz =>
      refine ⟨_, ⟨st, false⟩, .ok gws0, ltr ++ [Event.OnVMUserDelete inst res],
        by simpa using hx, ?_, ?_⟩
      · intro ev hev
        rcases List.mem_append.1 hev with hev | hev
        · rcases hlr.loop_kind_mem ev hev with h | h <;> rw [h] <;> simp
        · simp only [List.mem_singleton] at hev
          subst hev
          simp [Event.kind]
      · intro gws hg _
        cases hg
        obtain ⟨h1, h2, -, -⟩ := hlr.of_none rfl
        exact ⟨ltr, res, rfl, h1, h2, rfl⟩

/-- C7 (amended) on `u1Unmarked`. -/
theorem Reconcile_deleting_without_marker_witness :
    Time.IsZero u1Unmarked.DeletionTimestamp = false ∧
      u1Unmarked.Finalizers.contains FinalizerName = false ∧
      ∃ out s1 res rest, exec clusterCollaborators (Reconcile reqU1) cluster7 =
          some (out, s1, Event.Get reqU1.NamespacedName (.ok u1Unmarked) :: Event.Lock ::
            Event.List res :: (rest ++ [Event.Unlock])) ∧
        (∀ ev ∈ rest, ev.kind ≠ .AddFinalizer) ∧
        ∀ gws, res = .ok gws →
          (∀ g err, Event.CreateOrUpdateVMAuth g (some err) ∉ rest) →
          ∃ ltr cres, rest = ltr ++ [Event.OnVMUserDelete u1Unmarked cres] ∧
            matched ltr = gws ∧
            regenerated ltr =
              gws.filter (fun g => isMatch (matchOf clusterCollaborators u1Unmarked g)) ∧
            out = (Result.empty, cres) :=
  ⟨rfl, by decide,
    Reconcile_deleting_without_marker clusterCollaborators reqU1 cluster7 u1Unmarked rfl rfl
      (by decide) rfl⟩

/-- C8: whenever `Reconcile` is not kept waiting at `Lock` (the mutex is free, or
`Get` fails) it returns the empty result, and the error it returns is the error
of the first failed step among `Get` (with an error other than not-found),
`AddFinalizer`, `List`, `CreateOrUpdateVMAuth` and `OnVMUserDelete`; in
particular the returned error is non-nil exactly when one of these steps
failed.  A matcher error is not such a step. -/
theorem Reconcile_error_iff_step_fails {σ : Type} (c : Collaborators σ) (req : Request)
    (s : State σ)
    (hret : s.vmAuthSyncMU = false ∨ ∃ err, (c.Get req.NamespacedName s.store).1 = .error err) :
    ∃ out s1 tr, exec c (Reconcile req) s = some (out, s1, tr) ∧
      out.1 = Result.empty ∧ out.2 = firstFailure tr ∧
      (out.2 ≠ none ↔ ∃ ev ∈ tr, ev.failure ≠ none) := by
  obtain ⟨out, s1, tr, hx, -, -, hrun⟩ := exec_Reconcile c req s hret
  have key := hrun.reconcile_result
  refine ⟨out, s1, tr, hx, key.1, key.2, ?_⟩
  rw [key.2, firstFailure, ne_eq, List.findSome?_eq_none_iff]
  push_neg
  rfl

/-- C8 on the cluster where regenerating `g1` fails: the returned error is that
of the failed `CreateOrUpdateVMAuth`. -/
theorem Reconcile_error_iff_step_fails_witness :
    summary (exec clusterCollaborators (Reconcile reqU1) cluster3) =
        some ((Result.empty, some ⟨"Internal", "g1"⟩), [g1],
          [.Get, .Lock, .AddFinalizer, .List, .isSelectorsMatches, .CreateOrUpdateVMAuth,
            .Unlock],
          ["finalizer:u1"]) ∧
      ∃ out s1 tr, exec clusterCollaborators (Reconcile reqU1) cluster3 = some (out, s1, tr) ∧
        out.1 = Result.empty ∧ out.2 = firstFailure tr ∧
        (out.2 ≠ none ↔ ∃ ev ∈ tr, ev.failure ≠ none) :=
  ⟨by decide, Reconcile_error_iff_step_fails clusterCollaborators reqU1 cluster3 (Or.inl rfl)⟩

/-- C9: however the calls of any number of `Reconcile` invocations are
interleaved over one store and one mutex, and however the store is changed from
outside in between, at every moment at most one
invocation is inside the section guarded by `vmAuthSyncMU` (exactly one when
the mutex is held, none when it is free), and an invocation whose next call is
`AddFinalizer`, `List`, the matcher, `CreateOrUpdateVMAuth` or `OnVMUserDelete`
is inside it. -/
theorem Reconcile_mutual_exclusion {σ : Type} (c : Collaborators σ) (reqs : List Request)
    (store : σ) (sched : List (Move σ)) :
    (runSchedule c sched (start reqs store)).inSection ≤ 1 ∧
      (runSchedule c sched (start reqs store)).inSection =
        (if (runSchedule c sched (start reqs store)).state.vmAuthSyncMU then 1 else 0) ∧
      ∀ t ∈ (runSchedule c sched (start reqs store)).threads, ∀ o,
        t.prog.next = some o → guarded o = true → t.holding = true := by
  have h := Inv.inv_runSchedule c sched _ (Inv.inv_start reqs store)
  refine ⟨?_, h.2, ?_⟩
  · rw [h.2]
    split <;> simp
  · intro t ht o hn hg
    have hw := h.1 t ht
    cases hp : t.prog with
    | ret a => simp [hp, Prog.next] at hn
    | call o1 k =>
      rw [hp] at hn hw
      simp only [Prog.next, Option.some.injEq] at hn
      subst hn
      have hal := hw.1
      cases o1 <;> simp_all [guarded, allowed]

/-- C9 on two invocations for `u1`: once the first has taken the mutex,
scheduling the second leaves it waiting at `Lock` while the first goes on, and
only after the first has released the mutex is the second let in. -/
theorem Reconcile_mutual_exclusion_witness :
    ((runSchedule clusterCollaborators
        [.pick 0, .pick 1, .pick 0, .pick 1, .pick 1, .pick 0]
        (start [reqU1, reqU1] cluster1.store)).threads.map
          (fun t => (t.prog.next, t.holding))) =
        [(some .List, true), (some .Lock, false)] ∧
      ((runSchedule clusterCollaborators
        [.pick 0, .pick 1, .pick 0, .pick 1, .pick 0, .pick 0, .pick 0, .pick 0, .pick 0,
          .pick 0, .pick 0, .pick 1]
        (start [reqU1, reqU1] cluster1.store)).threads.map
          (fun t => (t.prog.next, t.holding))) =
        [(none, false), (some (.AddFinalizer u1), true)] ∧
      ((runSchedule clusterCollaborators
          [.pick 0, .pick 1, .pick 0, .pick 1, .pick 1, .pick 0]
          (start [reqU1, reqU1] cluster1.store)).inSection ≤ 1 ∧
        (runSchedule clusterCollaborators
          [.pick 0, .pick 1, .pick 0, .pick 1, .pick 1, .pick 0]
          (start [reqU1, reqU1] cluster1.store)).inSection =
          (if (runSchedule clusterCollaborators
            [.pick 0, .pick 1, .pick 0, .pick 1, .pick 1, .pick 0]
            (start [reqU1, reqU1] cluster1.store)).state.vmAuthSyncMU then 1 else 0) ∧
        ∀ t ∈ (runSchedule clusterCollaborators
            [.pick 0, .pick 1, .pick 0, .pick 1, .pick 1, .pick 0]
            (start [reqU1, reqU1] cluster1.store)).threads, ∀ o,
          t.prog.next = some o → guarded o = true → t.holding = true) :=
  ⟨by decide, by decide,
    Reconcile_mutual_exclusion clusterCollaborators [reqU1, reqU1] cluster1.store
      [.pick 0, .pick 1, .pick 0, .pick 1, .pick 1, .pick 0]⟩

/-- C10: when `Get` succeeds, `Reconcile` acquires the mutex exactly once and
releases it exactly once, whatever it returns: its trace is `Get`, `Lock`, the
calls of the locked part, `Unlock`.  The locked part (the finalizer step,
`List`, every matcher call, every `CreateOrUpdateVMAuth` call and the cleanup)
runs from a state with the mutex held to a state with the mutex held and calls
neither `Lock` nor `Unlock`, and the mutex is free after `Reconcile` as it was
before. -/
theorem Reconcile_lock_discipline {σ : Type} (c : Collaborators σ) (req : Request)
    (s : State σ) (inst : VMUser) (hG : (c.Get req.NamespacedName s.store).1 = .ok inst)
    (hfree : s.vmAuthSyncMU = false) :
    ∃ out st body, exec c (Reconcile req) s =
        some (out, ⟨st, s.vmAuthSyncMU⟩, Event.Get req.NamespacedName (.ok inst) :: Event.Lock ::
          (body ++ [Event.Unlock])) ∧
      exec c (reconcileLocked inst) ⟨(c.Get req.NamespacedName s.store).2, true⟩ =
        some (out, ⟨st, true⟩, body) ∧
      (∀ ev ∈ body, ev.kind ≠ .Get ∧ ev.kind ≠ .Lock ∧ ev.kind ≠ .Unlock) ∧
      ((Event.Get req.NamespacedName (.ok inst) :: Event.Lock ::
          (body ++ [Event.Unlock])).map Event.kind).count .Lock = 1 ∧
      ((Event.Get req.NamespacedName (.ok inst) :: Event.Lock ::
          (body ++ [Event.Unlock])).map Event.kind).count .Unlock = 1 := by
  obtain ⟨out, st, body, hx, hb, hl⟩ := exec_Reconcile_fetched c req s inst hG hfree
  have hk : ∀ ev ∈ body, ev.kind ≠ .Get ∧ ev.kind ≠ .Lock ∧ ev.kind ≠ .Unlock := by
    intro ev hev
    rcases hl.locked_kind_mem ev hev with h | h | h | h | h <;> rw [h] <;> simp
  have hnl : (body.map Event.kind).count .Lock = 0 := by
    rw [List.count_eq_zero]
    intro h
    obtain ⟨ev, hev, hke⟩ := List.mem_map.1 h
    exact (hk ev hev).2.1 hke
  have hnu : (body.map Event.kind).count .Unlock = 0 := by
    rw [List.count_eq_zero]
    intro h
    obtain ⟨ev, hev, hke⟩ := List.mem_map.1 h
    exact (hk ev hev).2.2 hke
  refine ⟨out, st, body, by rw [hfree]; exact hx, hb, hk, ?_, ?_⟩
  · simp [Event.kind, List.count_cons, hnl]
  · simp [Event.kind, List.count_cons, hnu]

/-- C10 on `u1` in a cluster with the mutex free. -/
theorem Reconcile_lock_discipline_witness :
    cluster1.vmAuthSyncMU = false ∧
      ∃ out st body, exec clusterCollaborators (Reconcile reqU1) cluster1 =
          some (out, ⟨st, cluster1.vmAuthSyncMU⟩, Event.Get reqU1.NamespacedName (.ok u1) ::
            Event.Lock :: (body ++ [Event.Unlock])) ∧
        exec clusterCollaborators (reconcileLocked u1)
            ⟨(clusterCollaborators.Get reqU1.NamespacedName cluster1.store).2, true⟩ =
          some (out, ⟨st, true⟩, body) ∧
        (∀ ev ∈ body, ev.kind ≠ .Get ∧ ev.kind ≠ .Lock ∧ ev.kind ≠ .Unlock) ∧
        ((Event.Get reqU1.NamespacedName (.ok u1) :: Event.Lock ::
            (body ++ [Event.Unlock])).map Event.kind).count .Lock = 1 ∧
        ((Event.Get reqU1.NamespacedName (.ok u1) :: Event.Lock ::
            (body ++ [Event.Unlock])).map Event.kind).count .Unlock = 1 :=
  ⟨rfl, Reconcile_lock_discipline clusterCollaborators reqU1 cluster1 u1 rfl rfl⟩

end VMOperator
